import Mathlib

/-!
# ASA CODE-HARMONIZER — verification of the reconciliation/harmonization core

Shallow embedding of the reconciliation-and-commit engine of the
ASA CODE-HARMONIZER worker (`src/index.js`) and of the file-unification
backend (`backend/server.js`), together with theorems settling the frozen
claims about the natural-language specification.

JavaScript plain objects (and `Map`s) are modelled as insertion-ordered
association lists `List (String × α)`:

* `objLookup o k` models `o[k]` (reading a property);
* `objSet o k v` models `o[k] = v`: if the key is already present its value
  is replaced in place (the key keeps its original position), otherwise the
  pair is appended at the end, exactly like property insertion order of a
  JS object.

`Array.prototype.sort` is modelled by a stable insertion sort
(the ECMAScript specification requires sort to be stable, and the two
comparators used by the source are consistent, so the sorted result is
uniquely determined and any stable sorting algorithm is a faithful model).
-/

set_option linter.unusedVariables false

namespace ASA

/-- A JavaScript object with values of type `α`, in property insertion order. -/
abbrev Obj (α : Type) : Type := List (String × α)

/-- Reading a property: `o[k]`, `none` for `undefined`. -/
def objLookup {α : Type} : Obj α → String → Option α
  | [], _ => none
  | (k', v) :: rest, k => if k' = k then some v else objLookup rest k

/-- Property assignment `o[k] = v`: overwrite in place, or append a fresh key. -/
def objSet {α : Type} : Obj α → String → α → Obj α
  | [], k, v => [(k, v)]
  | (k', v') :: rest, k, v =>
    if k' = k then (k, v) :: rest else (k', v') :: objSet rest k v

/-- The keys of an object, in property order (`Object.keys`). -/
def objKeys {α : Type} (o : Obj α) : List String := o.map Prod.fst

/-- The values of an object, in property order (`Object.values`). -/
def objValues {α : Type} (o : Obj α) : List α := o.map Prod.snd

/-!
## Data model (`src/index.js`)

A `PackageJson` models the three sub-maps of a parsed `package.json` that the
harmonizer reads, plus its `name` field.  A missing sub-map and an empty one
are identified (the source coalesces both with `|| {}` before every use).
-/

/-- The parts of a parsed `package.json` document used by the harmonizer. -/
structure PackageJson where
  name : Option String
  scripts : Obj String
  dependencies : Obj String
  devDependencies : Obj String
  deriving DecidableEq, Repr

/-- The empty manifest `{}` (with `|| {}` applied to each sub-map). -/
def emptyPackageJson : PackageJson := ⟨none, [], [], []⟩

/-- One collected module: `{ path, name, type, packageJson }` as built in
`handleHarmonizePlan` / `handleHarmonizeApply`. `packageJson = none` models a
manifest whose `JSON.parse` failed (`json = null`). -/
structure Module where
  path : String
  name : String
  type : String
  packageJson : Option PackageJson
  deriving DecidableEq, Repr

/-- `m.packageJson || {}` as used at the top of the analysis loop. -/
def pkgOf (m : Module) : PackageJson := m.packageJson.getD emptyPackageJson

/-- JavaScript string-valued `a || b`: falls through on `undefined` and on the
falsy empty string. -/
def jsOrString (a : Option String) (b : String) : String :=
  match a with
  | some s => if s = "" then b else s
  | none => b

/-- JavaScript truthiness of a possibly-undefined string property:
`undefined` and `""` are falsy, every other string is truthy. -/
def jsTruthy (a : Option String) : Bool :=
  match a with
  | some s => s ≠ ""
  | none => false

/-- `String.prototype.split` with a one-character separator: `splitOnChar sep
cs` cuts `cs` at every occurrence of `sep`, keeping empty pieces (so the
result always has one more piece than there are separators). -/
def splitOnChar (sep : Char) : List Char → List (List Char)
  | [] => [[]]
  | c :: rest =>
    match splitOnChar sep rest with
    | [] => [[c]]
    | g :: gs => if c = sep then [] :: g :: gs else (c :: g) :: gs

/-- Replace the first occurrence of `pat` in a character list (the semantics of
`String.prototype.replace` with a non-global pattern). -/
def replaceFirstChars (pat rep : List Char) : List Char → List Char
  | [] => []
  | c :: rest =>
    if pat.isPrefixOf (c :: rest) then rep ++ (c :: rest).drop pat.length
    else c :: replaceFirstChars pat rep rest

/-- `guessModuleName` from `src/index.js`: the parent directory name of the
manifest path, falling back to `path.replace("/package.json", "")`. -/
def guessModuleName (path : String) : String :=
  let parts := (splitOnChar '/' path.data).map String.mk
  if parts.length ≥ 2 then parts.getD (parts.length - 2) ""
  else String.mk (replaceFirstChars "/package.json".data [] path.data)

/-- `inferModuleType` from `src/index.js`. -/
def inferModuleType (path : String) : String :=
  if path.startsWith "apps/" then "app"
  else if path.startsWith "packages/" then "package"
  else "unknown"

/-- The module record built for one manifest file, given the result of
`JSON.parse` of its content (`none` when parsing threw). -/
def moduleOfParsed (path : String) (json : Option PackageJson) : Module :=
  { path := path
    name := jsOrString (json.bind PackageJson.name) (guessModuleName path)
    type := inferModuleType path
    packageJson := json }

/-- The collection loop of `handleHarmonizePlan`/`handleHarmonizeApply`: every
matching manifest file yields exactly one module; `parse` models `JSON.parse`
wrapped in the source's `try`/`catch` (`none` = parse failure). -/
def collectModules (parse : String → Option PackageJson)
    (files : List (String × String)) : List Module :=
  files.map (fun f => moduleOfParsed f.1 (parse f.2))

/-!
## Cross-module value maps (`analyzeModules`)

`scriptsMap[k][m.name] = v` / `depsMap[k][m.name] = v`, with dev-dependency
keys namespaced as `"dev:" ++ k`.  The source fills both maps in one loop over
the modules; since the two maps are disjoint pieces of state the embedding
folds each map separately over the same module list, preserving the exact
per-map write order.
-/

/-- `if (!map[k]) map[k] = {}; map[k][name] = v` — one write into a
cross-module value map. -/
def addEntry (map : Obj (Obj String)) (k name v : String) : Obj (Obj String) :=
  objSet map k (objSet ((objLookup map k).getD []) name v)

/-- The writes contributed by one module to `scriptsMap`. -/
def scriptStep (acc : Obj (Obj String)) (m : Module) : Obj (Obj String) :=
  (pkgOf m).scripts.foldl (fun a kv => addEntry a kv.1 m.name kv.2) acc

/-- `scriptsMap` after the collection loop of `analyzeModules`. -/
def scriptsMapOf (modules : List Module) : Obj (Obj String) :=
  modules.foldl scriptStep []

/-- The dev-namespace prefix applied to `devDependencies` keys. -/
def devKey (k : String) : String := "dev:" ++ k

/-- `depKey.startsWith("dev:")`. -/
def startsWithDev (k : String) : Bool := decide (k.data.take 4 = "dev:".data)

/-- `depKey.replace(/^dev:/, "")` (only ever used on keys that start with
`"dev:"`, where it drops that prefix). -/
def stripDev (k : String) : String :=
  if startsWithDev k then String.mk (k.data.drop 4) else k

/-- The writes contributed by one module to `depsMap`: its `dependencies`
under their own names, then its `devDependencies` under `"dev:"`-prefixed
names. -/
def depStep (acc : Obj (Obj String)) (m : Module) : Obj (Obj String) :=
  let acc1 := (pkgOf m).dependencies.foldl (fun a kv => addEntry a kv.1 m.name kv.2) acc
  (pkgOf m).devDependencies.foldl (fun a kv => addEntry a (devKey kv.1) m.name kv.2) acc1

/-- `depsMap` after the collection loop of `analyzeModules`. -/
def depsMapOf (modules : List Module) : Obj (Obj String) :=
  modules.foldl depStep []

/-!
## Version comparison (`compareVersionDesc`)
-/

/-- The whitespace characters skipped by JavaScript `parseInt`. -/
def jsWhitespace (c : Char) : Bool :=
  c = ' ' || c = '\t' || c = '\n' || c = '\r' || c.toNat = 11 || c.toNat = 12 || c.toNat = 160

/-- The maximal leading digit run of a character list, as a number;
`none` when there is no leading digit. -/
def digitRun (cs : List Char) : Option Nat :=
  let ds := cs.takeWhile Char.isDigit
  if ds = [] then none else some (ds.foldl (fun n c => n * 10 + (c.toNat - 48)) 0)

/-- JavaScript `parseInt(s, 10)`: skip leading whitespace, read an optional
sign and then a maximal digit run; `none` models `NaN`. -/
def parseIntJs (s : String) : Option Int :=
  match s.data.dropWhile jsWhitespace with
  | '-' :: rest => (digitRun rest).map (fun n => -(n : Int))
  | '+' :: rest => (digitRun rest).map (fun n => (n : Int))
  | cs => (digitRun cs).map (fun n => (n : Int))

/-- `v.replace(/^[^\d]*/, "")`: strip the maximal leading run of non-digit
characters. -/
def cleanVersion (v : String) : String :=
  String.mk (v.data.dropWhile (fun c => !c.isDigit))

/-- `clean(v).split(".").map(n => parseInt(n || "0", 10))`; `none` entries
model `NaN`. -/
def versionComponents (v : String) : List (Option Int) :=
  ((splitOnChar '.' (cleanVersion v).data).map String.mk).map
    (fun n => parseIntJs (if n = "" then "0" else n))

/-- `pa[i] || 0`: a missing component (`undefined`) and `NaN` collapse to 0. -/
def verPart (parts : List (Option Int)) (i : Nat) : Int :=
  ((parts.getD i none).getD 0)

/-- `compareVersionDesc` from `src/index.js`, with the `for (i = 0; i < 3)`
loop unrolled: negative when `a` sorts before `b` (higher version first). -/
def compareVersionDesc (a b : String) : Int :=
  let pa := versionComponents a
  let pb := versionComponents b
  let da0 := verPart pa 0
  let db0 := verPart pb 0
  if da0 > db0 then -1 else if da0 < db0 then 1 else
  let da1 := verPart pa 1
  let db1 := verPart pb 1
  if da1 > db1 then -1 else if da1 < db1 then 1 else
  let da2 := verPart pa 2
  let db2 := verPart pb 2
  if da2 > db2 then -1 else if da2 < db2 then 1 else 0

/-- The (major, minor, patch) tuple of a version string under the source's
parsing rule, in lexicographic order. -/
def verKey (v : String) : Int ×ₗ Int ×ₗ Int :=
  let p := versionComponents v
  toLex (verPart p 0, toLex (verPart p 1, verPart p 2))

/-!
## Stable sorting (`Array.prototype.sort`)

ECMAScript sort is stable; both comparators used by the source are consistent
(they are induced by key functions), so the sorted array is uniquely
determined and a stable insertion sort is a faithful model.  `lt a b = true`
models `cmp(a, b) < 0`, i.e. "`a` must sort strictly before `b`".
-/

/-- Insert an element (earlier in the original array than everything in the
already-sorted list) in front of the first element it must not follow. -/
def sortInsert {α : Type} (lt : α → α → Bool) (x : α) : List α → List α
  | [] => [x]
  | y :: ys => if lt y x then y :: sortInsert lt x ys else x :: y :: ys

/-- Stable sort with comparator `lt`. -/
def stableSort {α : Type} (lt : α → α → Bool) : List α → List α
  | [] => []
  | x :: xs => sortInsert lt x (stableSort lt xs)

/-- Fuel-indexed helper for `dedupFirst`; the fuel dominates the list length. -/
def dedupFuel : Nat → List String → List String
  | 0, _ => []
  | _ + 1, [] => []
  | n + 1, v :: rest => v :: dedupFuel n (rest.filter (fun x => x ≠ v))

/-- `Array.from(new Set(values))`: distinct values in first-occurrence order. -/
def dedupFirst (l : List String) : List String := dedupFuel l.length l

/-- `counts[v] = (counts[v] || 0) + 1` folded over the observed values. -/
def countsOf (values : List String) : Obj Nat :=
  values.foldl (fun c v => objSet c v (((objLookup c v).getD 0) + 1)) []

/-!
## Suggestion builders
-/

/-- One entry of `buildScriptSuggestions`' output. -/
inductive ScriptSuggestion where
  | uniform (key value : String) (modules : Obj String)
  | decision (key recommendedValue : String) (variants : Obj Nat) (modules : Obj String)
  deriving DecidableEq, Repr

/-- One entry of `buildDepSuggestions`' output.  Note that a dependency
decision's `variants` field is the (sorted-in-place) array of distinct
values, not a count map. -/
inductive DepSuggestion where
  | uniform (key version : String) (modules : Obj String)
  | decision (key recommendedVersion : String) (variants : List String) (modules : Obj String)
  deriving DecidableEq, Repr

/-- The key a script suggestion is about. -/
def scriptSugKey : ScriptSuggestion → String
  | .uniform k _ _ => k
  | .decision k _ _ _ => k

/-- The key a dependency suggestion is about. -/
def depSugKey : DepSuggestion → String
  | .uniform k _ _ => k
  | .decision k _ _ _ => k

/-- The loop body of `buildScriptSuggestions` for one `scriptsMap` entry. -/
def scriptSuggestionFor (key : String) (moduleValues : Obj String) : ScriptSuggestion :=
  let values := objValues moduleValues
  let uniqueValues := dedupFirst values
  if uniqueValues.length = 1 then
    .uniform key (uniqueValues.headD "") moduleValues
  else
    let counts := countsOf values
    let sorted := stableSort (fun a b => decide (a.2 > b.2)) counts
    .decision key (sorted.headD ("", 0)).1 counts moduleValues

/-- `buildScriptSuggestions` from `src/index.js`. -/
def buildScriptSuggestions (scriptsMap : Obj (Obj String)) : List ScriptSuggestion :=
  scriptsMap.map (fun kv => scriptSuggestionFor kv.1 kv.2)

/-- The comparator closure `compareVersionDesc` as a strictly-before test. -/
def versionLt (a b : String) : Bool := decide (compareVersionDesc a b < 0)

/-- The loop body of `buildDepSuggestions` for one `depsMap` entry.  The
source sorts `uniqueValues` in place, so the decision's `variants` field is
the sorted array. -/
def depSuggestionFor (key : String) (moduleValues : Obj String) : DepSuggestion :=
  let values := objValues moduleValues
  let uniqueValues := dedupFirst values
  if uniqueValues.length = 1 then
    .uniform key (uniqueValues.headD "") moduleValues
  else
    let sorted := stableSort versionLt uniqueValues
    .decision key (sorted.headD "") sorted moduleValues

/-- `buildDepSuggestions` from `src/index.js`. -/
def buildDepSuggestions (depsMap : Obj (Obj String)) : List DepSuggestion :=
  depsMap.map (fun kv => depSuggestionFor kv.1 kv.2)

/-!
## `analyzeModules` and `analyzeAndBuildHarmonized`
-/

/-- The `summary` tally of `analyzeModules`. -/
structure Summary where
  moduleCount : Nat
  scriptKeys : Nat
  dependencyKeys : Nat
  scriptsNeedingSync : Nat
  depsNeedingSync : Nat
  deriving DecidableEq, Repr

/-- One row of `modulesView`. -/
structure ModuleView where
  path : String
  name : String
  type : String
  hasPackageJson : Bool
  deriving DecidableEq, Repr

/-- The result record of `analyzeModules`. -/
structure Analysis where
  summary : Summary
  scriptSuggestions : List ScriptSuggestion
  depSuggestions : List DepSuggestion
  modulesView : List ModuleView
  deriving DecidableEq, Repr

/-- Whether a script suggestion is a decision (`s.kind !== "uniform"`). -/
def scriptIsDecision : ScriptSuggestion → Bool
  | .uniform _ _ _ => false
  | .decision _ _ _ _ => true

/-- Whether a dependency suggestion is a decision (`d.kind !== "uniform"`). -/
def depIsDecision : DepSuggestion → Bool
  | .uniform _ _ _ => false
  | .decision _ _ _ _ => true

/-- `analyzeModules` from `src/index.js`. -/
def analyzeModules (modules : List Module) : Analysis :=
  let scriptsMap := scriptsMapOf modules
  let depsMap := depsMapOf modules
  let scriptSuggestions := buildScriptSuggestions scriptsMap
  let depSuggestions := buildDepSuggestions depsMap
  { summary :=
      { moduleCount := modules.length
        scriptKeys := (objKeys scriptsMap).length
        dependencyKeys := (objKeys depsMap).length
        scriptsNeedingSync := (scriptSuggestions.filter scriptIsDecision).length
        depsNeedingSync := (depSuggestions.filter depIsDecision).length }
    scriptSuggestions := scriptSuggestions
    depSuggestions := depSuggestions
    modulesView := modules.map (fun m =>
      { path := m.path, name := m.name, type := m.type,
        hasPackageJson := m.packageJson.isSome }) }

/-- The map of script decisions (`scriptDecisions[s.key] = s.recommendedValue`). -/
def scriptDecisionsOf (sugs : List ScriptSuggestion) : Obj String :=
  sugs.foldl (fun acc s =>
    match s with
    | .decision k r _ _ => objSet acc k r
    | .uniform _ _ _ => acc) []

/-- The map of dependency decisions (`depDecisions[d.key] = d.recommendedVersion`). -/
def depDecisionsOf (sugs : List DepSuggestion) : Obj String :=
  sugs.foldl (fun acc s =>
    match s with
    | .decision k r _ _ => objSet acc k r
    | .uniform _ _ _ => acc) []

/-- The loop body applying one dependency decision `kv` to the pair
`(dependencies, devDependencies)`: a `dev:`-namespaced key overwrites the
stripped key in `devDependencies`, a plain key overwrites `dependencies`,
in both cases only when the existing value there is truthy. -/
def depApplyStep (p : Obj String × Obj String) (kv : String × String) :
    Obj String × Obj String :=
  if startsWithDev kv.1 then
    let realKey := stripDev kv.1
    if jsTruthy (objLookup p.2 realKey) then (p.1, objSet p.2 realKey kv.2) else p
  else
    if jsTruthy (objLookup p.1 kv.1) then (objSet p.1 kv.1 kv.2, p.2) else p

/-- The per-module harmonization loop body of `analyzeAndBuildHarmonized`:
deep-copy the manifest (or `{}`), write every script decision
unconditionally, and write every dependency decision into the scope its key
was namespaced from, only when the existing value there is truthy. -/
def harmonizePkg (scriptDecisions depDecisions : Obj String) (m : Module) : PackageJson :=
  let pkg := pkgOf m
  let scripts := scriptDecisions.foldl (fun scr kv => objSet scr kv.1 kv.2) pkg.scripts
  let depsPair := depDecisions.foldl depApplyStep (pkg.dependencies, pkg.devDependencies)
  { pkg with scripts := scripts, dependencies := depsPair.1, devDependencies := depsPair.2 }

/-- The result record of `analyzeAndBuildHarmonized`. -/
structure HarmonizedResult where
  analysis : Analysis
  harmonizedPackageJsons : Obj PackageJson
  deriving DecidableEq, Repr

/-- `analyzeAndBuildHarmonized` from `src/index.js`. -/
def analyzeAndBuildHarmonized (modules : List Module) : HarmonizedResult :=
  let analysis := analyzeModules modules
  let sd := scriptDecisionsOf analysis.scriptSuggestions
  let dd := depDecisionsOf analysis.depSuggestions
  { analysis := analysis
    harmonizedPackageJsons :=
      modules.foldl (fun acc m => objSet acc m.path (harmonizePkg sd dd m)) [] }

/-- The module set after one apply run, as re-collected by a following plan
run: every module's manifest is its harmonized manifest (whose `name` field
the deep copy preserves, so re-collection derives the same names). -/
def harmonizedModules (modules : List Module) : List Module :=
  let analysis := analyzeModules modules
  let sd := scriptDecisionsOf analysis.scriptSuggestions
  let dd := depDecisionsOf analysis.depSuggestions
  modules.map (fun m => { m with packageJson := some (harmonizePkg sd dd m) })

/-!
## First-occurrence indices and order transfer
-/

/-- Index of the first occurrence of a value in a list (`length` if absent). -/
def firstIdx (l : List String) (v : String) : Nat := l.findIdx (fun x => decide (x = v))

/-!
## Well-formedness and the `dev:` namespacing
-/

/-- Well-formedness of a manifest as a parsed JSON document: each sub-map
binds any key at most once (inherent to `JSON.parse` output). -/
def PkgWF (p : PackageJson) : Prop :=
  (objKeys p.scripts).Nodup ∧ (objKeys p.dependencies).Nodup ∧ (objKeys p.devDependencies).Nodup

instance (p : PackageJson) : Decidable (PkgWF p) := by
  unfold PkgWF
  infer_instance

/-- Well-formedness of a collected module set: manifests are parsed JSON
documents and module names are pairwise distinct (no name collision). -/
def ModulesWF (ms : List Module) : Prop :=
  (ms.map Module.name).Nodup ∧ ∀ m ∈ ms, PkgWF (pkgOf m)

instance (ms : List Module) : Decidable (ModulesWF ms) := by
  unfold ModulesWF
  infer_instance

/-- The value module `m` contributes to `scriptsMap` at key `k`. -/
def scriptValueOf (m : Module) (k : String) : Option String :=
  objLookup (pkgOf m).scripts k

/-- The value module `m` contributes to `depsMap` at key `k`: a
`devDependencies` entry (written second) shadows a literally-`dev:`-named
`dependencies` entry for the same map key. -/
def depValueOf (m : Module) (k : String) : Option String :=
  match (if startsWithDev k then objLookup (pkgOf m).devDependencies (stripDev k) else none) with
  | some v => some v
  | none => objLookup (pkgOf m).dependencies k

/-!
## Whole-map characterizations
-/

/-- The ordered `(name, value)` entries accumulated for key `k` of
`scriptsMap`, in module collection order. -/
def scriptEntryList (ms : List Module) (k : String) : List (String × String) :=
  ms.filterMap (fun m => (scriptValueOf m k).map (fun v => (m.name, v)))

/-- The ordered `(name, value)` entries accumulated for key `k` of
`depsMap`, in module collection order. -/
def depEntryList (ms : List Module) (k : String) : List (String × String) :=
  ms.filterMap (fun m => (depValueOf m k).map (fun v => (m.name, v)))

/-!
## Module-level vocabulary used by the claim statements
-/

/-- Some collected module holds value `v` for script key `k`. -/
def UsesScript (ms : List Module) (k v : String) : Prop :=
  ∃ m ∈ ms, scriptValueOf m k = some v

/-- Some collected module holds value `v` for (possibly `dev:`-namespaced)
dependency key `k`. -/
def UsesDep (ms : List Module) (k v : String) : Prop :=
  ∃ m ∈ ms, depValueOf m k = some v

instance (ms : List Module) (k v : String) : Decidable (UsesScript ms k v) := by
  unfold UsesScript
  infer_instance

instance (ms : List Module) (k v : String) : Decidable (UsesDep ms k v) := by
  unfold UsesDep
  infer_instance

/-- How many collected modules hold value `v` for script key `k`. -/
def scriptUserCount (ms : List Module) (k v : String) : Nat :=
  (ms.filter (fun m => decide (scriptValueOf m k = some v))).length

/-- Collection-order index of the first module holding value `v` for script
key `k`. -/
def firstScriptUse (ms : List Module) (k v : String) : Nat :=
  ms.findIdx (fun m => decide (scriptValueOf m k = some v))

/-- Collection-order index of the first module holding value `v` for
dependency key `k`. -/
def firstDepUse (ms : List Module) (k v : String) : Nat :=
  ms.findIdx (fun m => decide (depValueOf m k = some v))

/-- What reconciliation guarantees for a conflicting script key `k`:
a `Decision` is emitted (and every suggestion for `k` is that decision),
whose `recommendedValue` is used by the most modules, with the
first-seen-on-tie rule in collection order. -/
def ScriptDecisionSpec (ms : List Module) (k : String) : Prop :=
  ∃ rec mv,
    objLookup (scriptsMapOf ms) k = some mv ∧
    ScriptSuggestion.decision k rec (countsOf (objValues mv)) mv ∈
      (analyzeModules ms).scriptSuggestions ∧
    (∀ s ∈ (analyzeModules ms).scriptSuggestions, scriptSugKey s = k →
      s = ScriptSuggestion.decision k rec (countsOf (objValues mv)) mv) ∧
    UsesScript ms k rec ∧
    (∀ v, UsesScript ms k v → scriptUserCount ms k v ≤ scriptUserCount ms k rec) ∧
    (∀ v, UsesScript ms k v → scriptUserCount ms k v = scriptUserCount ms k rec →
      firstScriptUse ms k rec ≤ firstScriptUse ms k v)

/-- What reconciliation guarantees for a conflicting dependency key `k`:
a `Decision` is emitted (and every suggestion for `k` is that decision),
whose `recommendedVersion` has the lexicographically greatest
(major, minor, patch) tuple, with the earliest-in-collection-order rule on
equal tuples. -/
def DepDecisionSpec (ms : List Module) (k : String) : Prop :=
  ∃ rec mv,
    objLookup (depsMapOf ms) k = some mv ∧
    DepSuggestion.decision k rec (stableSort versionLt (dedupFirst (objValues mv))) mv ∈
      (analyzeModules ms).depSuggestions ∧
    (∀ s ∈ (analyzeModules ms).depSuggestions, depSugKey s = k →
      s = DepSuggestion.decision k rec (stableSort versionLt (dedupFirst (objValues mv))) mv) ∧
    UsesDep ms k rec ∧
    (∀ v, UsesDep ms k v → verKey v ≤ verKey rec) ∧
    (∀ v, UsesDep ms k v → verKey v = verKey rec →
      firstDepUse ms k rec ≤ firstDepUse ms k v)

/-!
## The apply pipeline's decision maps and harmonized manifests
-/

/-- The script decision map derived by `analyzeAndBuildHarmonized`. -/
def pipelineScriptDecisions (ms : List Module) : Obj String :=
  scriptDecisionsOf (analyzeModules ms).scriptSuggestions

/-- The dependency decision map derived by `analyzeAndBuildHarmonized`. -/
def pipelineDepDecisions (ms : List Module) : Obj String :=
  depDecisionsOf (analyzeModules ms).depSuggestions

/-- The harmonized manifest `analyzeAndBuildHarmonized` produces for one
module of the set. -/
def pipelineHarmonized (ms : List Module) (m : Module) : PackageJson :=
  harmonizePkg (pipelineScriptDecisions ms) (pipelineDepDecisions ms) m

/-- Amended claim C3 spec: harmonization never introduces a `dependencies`
or `devDependencies` key a module did not already have; script decisions,
by contrast, are written unconditionally into every module's `scripts`
sub-map (creating the key when missing). -/
def HarmonizeKeySpec (ms : List Module) (m : Module) : Prop :=
  (∀ k, objLookup (pkgOf m).dependencies k = none →
    objLookup (pipelineHarmonized ms m).dependencies k = none) ∧
  (∀ k, objLookup (pkgOf m).devDependencies k = none →
    objLookup (pipelineHarmonized ms m).devDependencies k = none) ∧
  (∀ k r, objLookup (pipelineScriptDecisions ms) k = some r →
    objLookup (pipelineHarmonized ms m).scripts k = some r)

/-- Claim C4 spec: a dependency decision overwrites a module's entry only
when the key is already present (with a truthy value) in the scope the key
was namespaced from, never adds an absent key, and never crosses scopes. -/
def DepScopeSpec (ms : List Module) (m : Module) : Prop :=
  ∀ k,
    (objLookup (pkgOf m).dependencies k = none →
      objLookup (pipelineHarmonized ms m).dependencies k = none) ∧
    (objLookup (pkgOf m).devDependencies k = none →
      objLookup (pipelineHarmonized ms m).devDependencies k = none) ∧
    (objLookup (pipelineHarmonized ms m).dependencies k ≠
        objLookup (pkgOf m).dependencies k →
      startsWithDev k = false ∧
      ∃ v r, objLookup (pkgOf m).dependencies k = some v ∧ v ≠ "" ∧
        objLookup (pipelineDepDecisions ms) k = some r ∧
        objLookup (pipelineHarmonized ms m).dependencies k = some r) ∧
    (objLookup (pipelineHarmonized ms m).devDependencies k ≠
        objLookup (pkgOf m).devDependencies k →
      ∃ v r, objLookup (pkgOf m).devDependencies k = some v ∧ v ≠ "" ∧
        objLookup (pipelineDepDecisions ms) (devKey k) = some r ∧
        objLookup (pipelineHarmonized ms m).devDependencies k = some r)

/-- What the claimed idempotence says of one previously conflicting key:
after harmonizing and re-running reconciliation, the key classifies as
`Uniform` with exactly the previously recommended value. -/
def RerunUniformSpec (ms : List Module) : Prop :=
  (∀ k rec var mv,
    ScriptSuggestion.decision k rec var mv ∈ (analyzeModules ms).scriptSuggestions →
    (∃ mv', ScriptSuggestion.uniform k rec mv' ∈
      (analyzeModules (harmonizedModules ms)).scriptSuggestions) ∧
    (∀ s ∈ (analyzeModules (harmonizedModules ms)).scriptSuggestions,
      scriptSugKey s = k → ∃ mv', s = ScriptSuggestion.uniform k rec mv')) ∧
  (∀ k rec var mv,
    DepSuggestion.decision k rec var mv ∈ (analyzeModules ms).depSuggestions →
    (∃ mv', DepSuggestion.uniform k rec mv' ∈
      (analyzeModules (harmonizedModules ms)).depSuggestions) ∧
    (∀ s ∈ (analyzeModules (harmonizedModules ms)).depSuggestions,
      depSugKey s = k → ∃ mv', s = DepSuggestion.uniform k rec mv'))

/-!
## Name collisions between collected modules
-/

/-- What a two-module name collision does to both cross-module maps: the
later module's value survives alone, for every shared key of either scope. -/
def NameCollisionSpec (m1 m2 : Module) : Prop :=
  (∀ k v1 v2, scriptValueOf m1 k = some v1 → scriptValueOf m2 k = some v2 →
    objLookup (scriptsMapOf [m1, m2]) k = some [(m2.name, v2)] ∧
    (∀ s ∈ (analyzeModules [m1, m2]).scriptSuggestions, scriptSugKey s = k →
      s = ScriptSuggestion.uniform k v2 [(m2.name, v2)])) ∧
  (∀ k v1 v2, depValueOf m1 k = some v1 → depValueOf m2 k = some v2 →
    objLookup (depsMapOf [m1, m2]) k = some [(m2.name, v2)] ∧
    (∀ s ∈ (analyzeModules [m1, m2]).depSuggestions, depSugKey s = k →
      s = DepSuggestion.uniform k v2 [(m2.name, v2)]))

/-!
## What the variant information of a decision actually contains
-/

/-- Amended claim C9 spec: a script Decision's `variants` field maps each
distinct observed value to the number of modules using it; a dependency
Decision's `variants` field is only the version-sorted array of distinct
observed values, carrying no counts. -/
def VariantInfoSpec (ms : List Module) : Prop :=
  (∀ k rec var mv,
    ScriptSuggestion.decision k rec var mv ∈ (analyzeModules ms).scriptSuggestions →
    ∀ v, objLookup var v =
      if scriptUserCount ms k v = 0 then none else some (scriptUserCount ms k v)) ∧
  (∀ k rec var mv,
    DepSuggestion.decision k rec var mv ∈ (analyzeModules ms).depSuggestions →
    var = stableSort versionLt (dedupFirst (objValues mv)))

/-!
## Collection of malformed manifests
-/

/-- Placeholder module used as the `getD` default when indexing. -/
def defaultCollectedModule : Module := ⟨"", "", "", none⟩

/-- Claim C7 spec: a manifest file whose content fails to parse still yields
exactly one module — with no manifest and a name derived purely from its
path — that contributes nothing to either cross-module map; collection never
aborts (it is total and produces one module per file). -/
def ParseFailureSpec (parse : String → Option PackageJson)
    (files : List (String × String)) (i : Nat) : Prop :=
  (collectModules parse files).length = files.length ∧
  ((collectModules parse files).getD i defaultCollectedModule).packageJson = none ∧
  ((collectModules parse files).getD i defaultCollectedModule).name =
    guessModuleName (files.getD i ("", "")).1 ∧
  scriptsMapOf (collectModules parse files) =
    scriptsMapOf ((collectModules parse files).eraseIdx i) ∧
  depsMapOf (collectModules parse files) =
    depsMapOf ((collectModules parse files).eraseIdx i)

/-!
## The RemoteCommitPipeline (`applyChangesAsPR`)

The GitHub API is an external collaborator; each remote call is modelled by
an oracle `GhReq → Except String GhResp` (`Except.error` = the `throw` in
`githubRequest` on a non-ok response).  The pipeline embedding additionally
records the requests it issues, in order, so that theorems can speak about
which remote writes were attempted.
-/

/-- One tree entry accumulated by the blob loop. -/
structure TreeEntry where
  path : String
  mode : String
  type : String
  sha : String
  deriving DecidableEq, Repr

/-- The remote calls `applyChangesAsPR` can issue. -/
inductive GhReq where
  | createRef (ref sha : String)
  | createBlob (content : String)
  | createTree (baseTree : String) (entries : List TreeEntry)
  | createCommit (message tree : String) (parents : List String)
  | updateRef (branch sha : String) (force : Bool)
  | createPull (title head base body : String)
  deriving DecidableEq, Repr

/-- The fields of a GitHub response the pipeline reads. -/
structure GhResp where
  sha : String := ""
  number : Nat := 0
  htmlUrl : String := ""
  deriving DecidableEq, Repr

/-- Repository metadata as assembled by `getRepoMeta`. -/
structure RepoMeta where
  owner : String
  repo : String
  defaultBranchName : String
  defaultBranchSha : String
  deriving DecidableEq, Repr

/-- The value `applyChangesAsPR` returns on success. -/
structure PrResult where
  prNumber : Nat
  prUrl : String
  commitSha : String
  deriving DecidableEq, Repr

/-- Step 2 of the pipeline: one blob upload per harmonized file, collecting
`(path, "100644", "blob", sha)` tree entries; aborts on the first failing
call. -/
def createBlobsLoop (oracle : GhReq → Except String GhResp)
    (stringify : PackageJson → String) :
    List (String × PackageJson) → List GhReq → List TreeEntry →
    List GhReq × Except String (List TreeEntry)
  | [], reqs, entries => (reqs, Except.ok entries)
  | (path, pkgJson) :: rest, reqs, entries =>
    let req := GhReq.createBlob (stringify pkgJson ++ "\n")
    match oracle req with
    | Except.error e => (reqs ++ [req], Except.error e)
    | Except.ok blob =>
      createBlobsLoop oracle stringify rest (reqs ++ [req])
        (entries ++ [⟨path, "100644", "blob", blob.sha⟩])

/-- `applyChangesAsPR` from `src/index.js`: create branch ref, upload blobs,
create tree, create commit, force-update the branch ref, open the pull
request; the first failing remote call aborts the sequence and surfaces the
error.  The issued requests are returned alongside the outcome. -/
def applyChangesAsPR (oracle : GhReq → Except String GhResp)
    (stringify : PackageJson → String) (repoMeta : RepoMeta)
    (harmonizedPackageJsons : Obj PackageJson)
    (branchName prTitle prBody : String) :
    List GhReq × Except String PrResult :=
  let req1 := GhReq.createRef ("refs/heads/" ++ branchName) repoMeta.defaultBranchSha
  match oracle req1 with
  | Except.error e => ([req1], Except.error e)
  | Except.ok _ =>
    match createBlobsLoop oracle stringify harmonizedPackageJsons [req1] [] with
    | (reqs, Except.error e) => (reqs, Except.error e)
    | (reqs, Except.ok treeEntries) =>
      let req2 := GhReq.createTree repoMeta.defaultBranchSha treeEntries
      match oracle req2 with
      | Except.error e => (reqs ++ [req2], Except.error e)
      | Except.ok newTree =>
        let req3 := GhReq.createCommit prTitle newTree.sha [repoMeta.defaultBranchSha]
        match oracle req3 with
        | Except.error e => (reqs ++ [req2, req3], Except.error e)
        | Except.ok commit =>
          let req4 := GhReq.updateRef branchName commit.sha true
          match oracle req4 with
          | Except.error e => (reqs ++ [req2, req3, req4], Except.error e)
          | Except.ok _ =>
            let req5 := GhReq.createPull prTitle branchName
              repoMeta.defaultBranchName prBody
            match oracle req5 with
            | Except.error e => (reqs ++ [req2, req3, req4, req5], Except.error e)
            | Except.ok pr =>
              (reqs ++ [req2, req3, req4, req5],
                Except.ok ⟨pr.number, pr.htmlUrl, commit.sha⟩)

/-- A request that moves a branch ref or opens a pull request. -/
def isRefUpdateOrPull : GhReq → Bool
  | GhReq.updateRef _ _ _ => true
  | GhReq.createPull _ _ _ _ => true
  | _ => false

/-- Claim C6 spec: when the CreateCommit call fails after branch, blobs and
tree succeeded, the pipeline surfaces that error, never issues the branch-ref
update or the pull-request creation, and the only ref ever created points at
the original base sha. -/
def CommitFailureSpec (oracle : GhReq → Except String GhResp)
    (stringify : PackageJson → String) (repoMeta : RepoMeta)
    (harmonizedPackageJsons : Obj PackageJson)
    (branchName prTitle prBody : String) (e : String) : Prop :=
  (applyChangesAsPR oracle stringify repoMeta harmonizedPackageJsons
      branchName prTitle prBody).2 = Except.error e ∧
  (∀ r ∈ (applyChangesAsPR oracle stringify repoMeta harmonizedPackageJsons
      branchName prTitle prBody).1, isRefUpdateOrPull r = false) ∧
  (∀ ref sha, GhReq.createRef ref sha ∈
      (applyChangesAsPR oracle stringify repoMeta harmonizedPackageJsons
        branchName prTitle prBody).1 →
    ref = "refs/heads/" ++ branchName ∧ sha = repoMeta.defaultBranchSha)

/-!
## File unification (`backend/server.js` and `generateUnifiedSuggestions`)

The filesystem and the AI client are external collaborators: `listFiles`
models the recursive source-file listing of a component directory, and
`unifyCall` models one chat-completion round trip (`Except.error` = the call
threw, e.g. because the client is unconfigured or unreachable).
-/

/-- A suggestion row pushed by `backend/server.js`'s preview handler.  `data`
is the raw completion content string, so `data.unified` / `data.why` read
properties off a string and are `undefined` (`none`). -/
structure ServerSuggestion where
  file : String
  unified : Option String
  why : Option String
  deriving DecidableEq, Repr

/-- The JSON body `/api/harmonize/preview` responds with:
`{ok:true, suggestions}` or the catch-all `{ok:false, error}`. -/
inductive PreviewResponse where
  | success (suggestions : List ServerSuggestion)
  | failure (error : String)
  deriving DecidableEq, Repr

/-- The per-relative-path version map built by the preview handler
(a JS `Map`, insertion ordered). -/
def collectVersionMap (listFiles : String → List (String × String))
    (comps : List (String × String)) : Obj (List (String × String)) :=
  comps.foldl (fun map c =>
    (listFiles c.2).foldl (fun map f =>
      objSet map f.1 (((objLookup map f.1).getD []) ++ [(c.1, f.2)])) map) []

/-- The prompt template sent to the unify collaborator for one group. -/
def unifyPrompt (file : String) (versions : List (String × String)) : String :=
  "\nUnify all versions of file: " ++ file ++ "\n\n" ++
  String.intercalate "\n" (versions.map (fun v =>
    "\n===== " ++ v.1 ++ " =====\n" ++ v.2 ++ "\n")) ++
  "\n\nReturn ONLY JSON:\n\x7b\n \"unified\": \"...\",\n \"why\": \"...\"\n\x7d\n"

/-- The sequential unify loop of the preview handler: the first failing call
throws into the surrounding `catch`, producing the `{ok:false, error}`
response. -/
def previewLoop (unifyCall : String → Except String String) :
    List (String × List (String × String)) → List ServerSuggestion → PreviewResponse
  | [], acc => PreviewResponse.success acc
  | (file, versions) :: rest, acc =>
    match unifyCall (unifyPrompt file versions) with
    | Except.error e => PreviewResponse.failure e
    | Except.ok _data =>
      previewLoop unifyCall rest (acc ++ [⟨file, none, none⟩])

/-- `POST /api/harmonize/preview` from `backend/server.js`: collect the
version map, keep groups with more than one version, and call the unify
collaborator once per group. -/
def previewHandler (unifyCall : String → Except String String)
    (listFiles : String → List (String × String))
    (comps : List (String × String)) : PreviewResponse :=
  let map := collectVersionMap listFiles comps
  let diffs := map.filter (fun kv => 1 < kv.2.length)
  previewLoop unifyCall diffs []

/-- One conflicting file group handed to `generateUnifiedSuggestions` in the
worker's embedded backend (`src/index.js`, SECTION 1). -/
structure HarmonizerDiff where
  file : String
  components : List String
  rawContents : Obj String
  deriving DecidableEq, Repr

/-- A unification suggestion produced by `generateUnifiedSuggestions`. -/
structure HarmonizerSuggestion where
  file : String
  unifiedCode : String
  rationale : String
  deriving DecidableEq, Repr

/-- `generateUnifiedSuggestions` from `src/index.js` (SECTION 1): with no
OpenAI client (`openai = null`, i.e. the API key is missing) every group
yields the fixed placeholder; otherwise each group goes through the external
unify call (modelled by `unify`, the call plus JSON-parsing fallbacks). -/
def generateUnifiedSuggestions (openai : Option Unit)
    (unify : HarmonizerDiff → String × String)
    (diffs : List HarmonizerDiff) : List HarmonizerSuggestion :=
  match openai with
  | none => diffs.map (fun d =>
      { file := d.file
        unifiedCode := "// OpenAI API key missing – manual harmonization needed.\n"
        rationale := "OpenAI disabled – please manually unify this file." })
  | some _ => diffs.map (fun d =>
      { file := d.file, unifiedCode := (unify d).1, rationale := (unify d).2 })

/-!
## Concrete instances: the specification's worked example and counterexamples
-/

/-- Module A of the specification's worked example. -/
def demoModuleA : Module :=
  ⟨"apps/a/package.json", "a", "app",
    some ⟨some "a", [("build", "tsc")], [("react", "^17.0.0")], []⟩⟩

/-- Module B of the specification's worked example. -/
def demoModuleB : Module :=
  ⟨"apps/b/package.json", "b", "app",
    some ⟨some "b", [("build", "vite build")], [("react", "^18.2.0")], []⟩⟩

/-- A third module with no scripts at all. -/
def demoModuleC : Module :=
  ⟨"apps/c/package.json", "c", "app", some ⟨some "c", [], [], []⟩⟩

/-- A module with a truthy version for dependency `x`. -/
def demoModuleD1 : Module :=
  ⟨"apps/d1/package.json", "d1", "app", some ⟨some "d1", [], [("x", "1.0.0")], []⟩⟩

/-- A module whose value for dependency `x` is the falsy empty string. -/
def demoModuleD2 : Module :=
  ⟨"apps/d2/package.json", "d2", "app", some ⟨some "d2", [], [("x", "")], []⟩⟩

/-- First of three modules sharing dependency `react`. -/
def demoModuleE1 : Module :=
  ⟨"apps/e1/package.json", "e1", "app", some ⟨some "e1", [], [("react", "1.0.0")], []⟩⟩

/-- Second of three modules sharing dependency `react`. -/
def demoModuleE2 : Module :=
  ⟨"apps/e2/package.json", "e2", "app", some ⟨some "e2", [], [("react", "2.0.0")], []⟩⟩

/-- Third module, agreeing with the second on `react`. -/
def demoModuleE3 : Module :=
  ⟨"apps/e3/package.json", "e3", "app", some ⟨some "e3", [], [("react", "2.0.0")], []⟩⟩

/-- Two modules in different roots that resolve to the same name. -/
def demoCollide1 : Module :=
  ⟨"apps/x/dup/package.json", "dup", "app",
    some ⟨some "dup", [("build", "tsc")], [("react", "^17.0.0")], []⟩⟩

/-- The later-collected module with the colliding name. -/
def demoCollide2 : Module :=
  ⟨"packages/y/dup/package.json", "dup", "package",
    some ⟨some "dup", [("build", "vite build")], [("react", "^18.2.0")], []⟩⟩

/-- An oracle whose CreateCommit call fails and whose other calls succeed. -/
def demoOracle : GhReq → Except String GhResp
  | GhReq.createCommit _ _ _ =>
    Except.error "GitHub API error for /repos/o/r/git/commits: 500 boom"
  | _ => Except.ok ⟨"sha0", 0, ""⟩

/-- A serialization stand-in for `JSON.stringify(pkg, null, 2)`. -/
def demoStringify : PackageJson → String := fun _ => "serialized"

/-- Repository metadata for the pipeline witness. -/
def demoRepoMeta : RepoMeta := ⟨"kbence2000", "asa_full", "main", "base-sha"⟩

/-- A parser that fails on this content (`JSON.parse` throwing). -/
def demoParse : String → Option PackageJson := fun s =>
  if s = "not-json" then none
  else some ⟨some "p", [], [], []⟩

/-- One manifest file whose content does not parse. -/
def demoFiles : List (String × String) := [("apps/x/package.json", "not-json")]

/-- A filesystem with the same relative file in two components. -/
def demoListFiles : String → List (String × String) := fun p =>
  if p = "apps/alpha" then [("utils/format.ts", "export const a = 1\n")]
  else if p = "apps/beta" then [("utils/format.ts", "export const a = 2\n")]
  else []

/-- A unify collaborator that is unreachable: every call throws. -/
def failingUnifyCall : String → Except String String := fun _ =>
  Except.error "connect ECONNREFUSED"

/-!
## Theorems
-/

@[simp] theorem objLookup_nil {α : Type} (k : String) : objLookup ([] : Obj α) k = none := rfl

@[simp] theorem objLookup_cons {α : Type} (k' : String) (v : α) (rest : Obj α) (k : String) :
    objLookup ((k', v) :: rest) k = if k' = k then some v else objLookup rest k := rfl

@[simp] theorem objSet_nil {α : Type} (k : String) (v : α) : objSet ([] : Obj α) k v = [(k, v)] := rfl

theorem objLookup_objSet_self {α : Type} (o : Obj α) (k : String) (v : α) :
    objLookup (objSet o k v) k = some v := by
  induction o with
  | nil => simp [objSet]
  | cons hd tl ih =>
    obtain ⟨k', v'⟩ := hd
    by_cases h : k' = k
    · simp [objSet, h]
    · simp [objSet, h, ih]

@[simp] theorem objKeys_nil {α : Type} : objKeys ([] : Obj α) = [] := rfl

@[simp] theorem objKeys_cons {α : Type} (k' : String) (v : α) (tl : Obj α) :
    objKeys ((k', v) :: tl) = k' :: objKeys tl := rfl

@[simp] theorem objValues_nil {α : Type} : objValues ([] : Obj α) = [] := rfl

@[simp] theorem objValues_cons {α : Type} (k' : String) (v : α) (tl : Obj α) :
    objValues ((k', v) :: tl) = v :: objValues tl := rfl

theorem objLookup_objSet_ne {α : Type} (o : Obj α) (k k₂ : String) (v : α) (h : k ≠ k₂) :
    objLookup (objSet o k v) k₂ = objLookup o k₂ := by
  induction o with
  | nil => simp [objSet, h]
  | cons hd tl ih =>
    obtain ⟨k', v'⟩ := hd
    by_cases hk : k' = k
    · subst hk; simp [objSet, h]
    · by_cases hk2 : k' = k₂
      · subst hk2; simp [objSet, hk]
      · simp [objSet, hk, hk2, ih]

theorem objKeys_objSet_mem {α : Type} (o : Obj α) (k : String) (v : α) (h : k ∈ objKeys o) :
    objKeys (objSet o k v) = objKeys o := by
  induction o with
  | nil => simp at h
  | cons hd tl ih =>
    obtain ⟨k', v'⟩ := hd
    by_cases hk : k' = k
    · simp [objSet, hk]
    · simp [hk] at h
      rcases h with h | h
      · exact absurd h.symm hk
      · simp [objSet, hk, ih h]

theorem objSet_not_mem {α : Type} (o : Obj α) (k : String) (v : α) (h : k ∉ objKeys o) :
    objSet o k v = o ++ [(k, v)] := by
  induction o with
  | nil => simp [objSet]
  | cons hd tl ih =>
    obtain ⟨k', v'⟩ := hd
    simp at h
    have hk : ¬ k' = k := fun h' => h.1 h'.symm
    simp [objSet, hk, ih h.2]

theorem objKeys_objSet {α : Type} (o : Obj α) (k : String) (v : α) :
    objKeys (objSet o k v) = if k ∈ objKeys o then objKeys o else objKeys o ++ [k] := by
  by_cases h : k ∈ objKeys o
  · simp [h, objKeys_objSet_mem _ _ _ h]
  · rw [objSet_not_mem _ _ _ h, if_neg h]
    simp [objKeys]

theorem objKeys_nodup_objSet {α : Type} (o : Obj α) (k : String) (v : α)
    (h : (objKeys o).Nodup) : (objKeys (objSet o k v)).Nodup := by
  rw [objKeys_objSet]
  by_cases hm : k ∈ objKeys o
  · simpa [hm]
  · rw [if_neg hm]
    refine List.Nodup.append h (List.nodup_singleton k) ?_
    intro a ha hb
    simp at hb
    exact hm (hb ▸ ha)

theorem objLookup_eq_none_iff {α : Type} (o : Obj α) (k : String) :
    objLookup o k = none ↔ k ∉ objKeys o := by
  induction o with
  | nil => simp
  | cons hd tl ih =>
    obtain ⟨k', v'⟩ := hd
    by_cases h : k' = k
    · subst h; simp
    · simp [h, ih]
      exact fun _ hk => h hk.symm

theorem objLookup_isSome_iff {α : Type} (o : Obj α) (k : String) :
    (objLookup o k).isSome ↔ k ∈ objKeys o := by
  rw [← Decidable.not_not (p := k ∈ objKeys o), ← objLookup_eq_none_iff]
  cases objLookup o k <;> simp

theorem objLookup_mem {α : Type} (o : Obj α) (k : String) (v : α)
    (h : objLookup o k = some v) : (k, v) ∈ o := by
  induction o with
  | nil => simp at h
  | cons hd tl ih =>
    obtain ⟨k', v'⟩ := hd
    by_cases hk : k' = k
    · subst hk; simp at h; simp [h]
    · simp [hk] at h
      simp [ih h]

theorem mem_objLookup_of_nodup {α : Type} (o : Obj α) (k : String) (v : α)
    (hn : (objKeys o).Nodup) (h : (k, v) ∈ o) : objLookup o k = some v := by
  induction o with
  | nil => simp at h
  | cons hd tl ih =>
    obtain ⟨k', v'⟩ := hd
    simp only [objKeys_cons, List.nodup_cons] at hn
    rcases List.mem_cons.mp h with h | h
    · cases h; simp
    · have hk : k' ≠ k := by
        rintro rfl
        exact hn.1 (List.mem_map_of_mem Prod.fst h)
      simp [hk, ih hn.2 h]

theorem objSet_objSet_same {α : Type} (o : Obj α) (k : String) (v w : α) :
    objSet (objSet o k v) k w = objSet o k w := by
  induction o with
  | nil => simp [objSet]
  | cons hd tl ih =>
    obtain ⟨k', v'⟩ := hd
    by_cases h : k' = k <;> simp [objSet, h, ih]

theorem objValues_objSet_subset {α : Type} (o : Obj α) (k : String) (v : α) (x : α)
    (hx : x ∈ objValues (objSet o k v)) : x ∈ objValues o ∨ x = v := by
  induction o with
  | nil => simp [objSet, objValues] at hx; right; exact hx
  | cons hd tl ih =>
    obtain ⟨k', v'⟩ := hd
    by_cases h : k' = k
    · simp [objSet, h, objValues] at hx
      rcases hx with hx | hx
      · right; exact hx
      · left; simp [objValues, hx]
    · simp [objSet, h, objValues] at hx ⊢
      rcases hx with hx | hx
      · left; left; exact hx
      · rcases ih (by simpa [objValues] using hx) with h' | h'
        · left; right; simpa [objValues] using h'
        · right; exact h'

theorem dedupFuel_congr (m : Nat) (n : Nat) (l : List String)
    (hm : l.length ≤ m) (hn : l.length ≤ n) : dedupFuel m l = dedupFuel n l := by
  induction m generalizing n l with
  | zero =>
    have hl : l = [] := List.length_eq_zero.mp (Nat.le_zero.mp hm)
    subst hl
    cases n <;> rfl
  | succ m ih =>
    cases l with
    | nil => cases n <;> rfl
    | cons v rest =>
      cases n with
      | zero => exact absurd hn (by simp)
      | succ n =>
        simp only [dedupFuel]
        refine congrArg _ (ih n (rest.filter (fun x => x ≠ v)) ?_ ?_)
        · exact le_trans (List.length_filter_le _ _)
            (Nat.succ_le_succ_iff.mp (by simpa using hm))
        · exact le_trans (List.length_filter_le _ _)
            (Nat.succ_le_succ_iff.mp (by simpa using hn))

@[simp] theorem dedupFirst_nil : dedupFirst [] = [] := rfl

theorem dedupFirst_cons (v : String) (rest : List String) :
    dedupFirst (v :: rest) = v :: dedupFirst (rest.filter (fun x => x ≠ v)) := by
  show dedupFuel (rest.length + 1) (v :: rest) = _
  simp only [dedupFuel]
  exact congrArg _ (dedupFuel_congr _ _ _ (List.length_filter_le _ _) le_rfl)

/-!
## Lemmas about the stable sort
-/

theorem length_sortInsert {α : Type} (lt : α → α → Bool) (x : α) (l : List α) :
    (sortInsert lt x l).length = l.length + 1 := by
  induction l with
  | nil => rfl
  | cons y ys ih =>
    rw [sortInsert]
    by_cases h : lt y x <;> simp [h, ih]

theorem length_stableSort {α : Type} (lt : α → α → Bool) (l : List α) :
    (stableSort lt l).length = l.length := by
  induction l with
  | nil => rfl
  | cons x xs ih => rw [stableSort, length_sortInsert, ih, List.length_cons]

/-- Head of a stable descending-by-key sort: it is the first element of the
input achieving the maximal key. -/
theorem stableSort_head_max {α κ : Type} [LinearOrder κ]
    (lt : α → α → Bool) (f : α → κ) (hlt : ∀ a b, lt a b = decide (f b < f a)) :
    ∀ (l : List α) (h : α), (stableSort lt l).head? = some h →
      ∃ l1 l2, l = l1 ++ h :: l2 ∧ (∀ b ∈ l, f b ≤ f h) ∧ (∀ b ∈ l1, f b < f h) := by
  intro l
  induction l with
  | nil => intro h hh; simp [stableSort] at hh
  | cons x xs ih =>
    intro h hh
    rw [stableSort] at hh
    cases hs : stableSort lt xs with
    | nil =>
      have hxs : xs = [] := by
        have hl := length_stableSort lt xs
        rw [hs] at hl
        exact List.length_eq_zero.mp hl.symm
      subst hxs
      rw [hs] at hh
      simp [sortInsert] at hh
      subst hh
      exact ⟨[], [], rfl, by simp, by simp⟩
    | cons y ys =>
      rw [hs] at hh
      obtain ⟨l1, l2, hdecomp, hmax, hfirst⟩ := ih y (by rw [hs]; rfl)
      rw [sortInsert] at hh
      by_cases hyx : lt y x
      · rw [if_pos hyx] at hh
        have hhy : h = y := by simpa using hh.symm
        subst hhy
        have hxy : f x < f h := by
          have h2 := hlt h x
          rw [hyx] at h2
          exact of_decide_eq_true h2.symm
        refine ⟨x :: l1, l2, by simp [hdecomp], ?_, ?_⟩
        · intro b hb
          rcases List.mem_cons.mp hb with rfl | hb
          · exact le_of_lt hxy
          · exact hmax b hb
        · intro b hb
          rcases List.mem_cons.mp hb with rfl | hb
          · exact hxy
          · exact hfirst b hb
      · rw [if_neg hyx] at hh
        have hhx : h = x := by simpa using hh.symm
        subst hhx
        have hyx' : f y ≤ f h := by
          have hc : ¬ f h < f y := fun hc => hyx (by rw [hlt y h]; exact decide_eq_true hc)
          exact le_of_not_lt hc
        refine ⟨[], xs, rfl, ?_, by simp⟩
        intro b hb
        rcases List.mem_cons.mp hb with rfl | hb
        · exact le_refl _
        · exact le_trans (hmax b hb) hyx'

/-!
## Lemmas about `dedupFirst` and `countsOf`
-/

theorem mem_dedupFirst (l : List String) (x : String) : x ∈ dedupFirst l ↔ x ∈ l := by
  match l with
  | [] => simp
  | v :: rest =>
    rw [dedupFirst_cons]
    by_cases hx : x = v
    · simp [hx]
    · have ih := mem_dedupFirst (rest.filter (fun y => y ≠ v)) x
      simp only [List.mem_cons, hx, false_or, ih, List.mem_filter]
      simp [hx]
termination_by l.length
decreasing_by
  simp only [List.length_cons]
  exact Nat.lt_succ_of_le (List.length_filter_le _ _)

theorem dedupFirst_nodup (l : List String) : (dedupFirst l).Nodup := by
  match l with
  | [] => simp
  | v :: rest =>
    rw [dedupFirst_cons]
    refine List.nodup_cons.mpr ⟨?_, dedupFirst_nodup (rest.filter (fun y => y ≠ v))⟩
    rw [mem_dedupFirst]
    simp
termination_by l.length
decreasing_by
  simp only [List.length_cons]
  exact Nat.lt_succ_of_le (List.length_filter_le _ _)

theorem dedupFirst_eq_nil_iff (l : List String) : dedupFirst l = [] ↔ l = [] := by
  match l with
  | [] => simp
  | v :: rest => rw [dedupFirst_cons]; simp

theorem dedupFirst_all_eq (l : List String) (r : String) (hne : l ≠ [])
    (hall : ∀ x ∈ l, x = r) : dedupFirst l = [r] := by
  match l with
  | [] => exact absurd rfl hne
  | v :: rest =>
    have hv : v = r := hall v (by simp)
    rw [dedupFirst_cons]
    subst hv
    have : rest.filter (fun y => y ≠ v) = [] := by
      rw [List.filter_eq_nil_iff]
      intro a ha
      simp [hall a (List.mem_cons_of_mem _ ha)]
    rw [this]
    simp

theorem dedupFirst_length_one (l : List String) (h : (dedupFirst l).length = 1) :
    ∀ a ∈ l, ∀ b ∈ l, a = b := by
  intro a ha b hb
  have ha' := (mem_dedupFirst l a).mpr ha
  have hb' := (mem_dedupFirst l b).mpr hb
  match hD : dedupFirst l with
  | [] => rw [hD] at ha'; simp at ha'
  | [x] =>
    rw [hD] at ha' hb'
    simp at ha' hb'
    rw [ha', hb']
  | x :: y :: rest => rw [hD] at h; simp at h

theorem dedupFirst_length_ne_one (l : List String) (a b : String)
    (ha : a ∈ l) (hb : b ∈ l) (hab : a ≠ b) : (dedupFirst l).length ≠ 1 :=
  fun h => hab (dedupFirst_length_one l h a ha b hb)

theorem dedupFirst_append_singleton (l : List String) (x : String) :
    dedupFirst (l ++ [x]) = if x ∈ l then dedupFirst l else dedupFirst l ++ [x] := by
  match l with
  | [] => simp [dedupFirst_cons]
  | v :: rest =>
    by_cases hx : x = v
    · subst hx
      rw [List.cons_append, dedupFirst_cons, dedupFirst_cons]
      simp [List.filter_append]
    · rw [List.cons_append, dedupFirst_cons, dedupFirst_cons]
      have hfa : (rest ++ [x]).filter (fun y => y ≠ v) =
          rest.filter (fun y => y ≠ v) ++ [x] := by
        simp [List.filter_append, hx]
      rw [hfa, dedupFirst_append_singleton (rest.filter (fun y => y ≠ v)) x]
      have hmem : x ∈ rest.filter (fun y => y ≠ v) ↔ x ∈ rest := by
        simp [List.mem_filter, hx]
      by_cases hr : x ∈ rest
      · simp [hmem.mpr hr, hr, hx]
      · have : ¬ x ∈ rest.filter (fun y => y ≠ v) := fun hc => hr (hmem.mp hc)
        simp [this, hr, hx]
termination_by l.length
decreasing_by
  simp only [List.length_cons]
  exact Nat.lt_succ_of_le (List.length_filter_le _ _)

theorem objLookup_map_graph {β : Type} (D : List String) (g : String → β) (x : String) :
    objLookup (D.map (fun v => (v, g v))) x = if x ∈ D then some (g x) else none := by
  induction D with
  | nil => simp
  | cons d rest ih =>
    by_cases hd : d = x
    · subst hd; simp
    · simp only [List.map_cons, objLookup_cons, hd, if_false, ih, List.mem_cons]
      have : ¬ x = d := fun h => hd h.symm
      simp [this]

theorem objSet_map_graph {β : Type} (D : List String) (g : String → β) (x : String) (c : β)
    (hD : D.Nodup) (hx : x ∈ D) :
    objSet (D.map (fun v => (v, g v))) x c =
      D.map (fun v => (v, if v = x then c else g v)) := by
  induction D with
  | nil => simp at hx
  | cons d rest ih =>
    rcases List.nodup_cons.mp hD with ⟨hd, hrest⟩
    by_cases hdx : d = x
    · subst hdx
      simp only [List.map_cons, objSet, if_pos rfl, if_true]
      congr 1
      refine (List.map_congr_left ?_).symm
      intro v hv
      have : ¬ v = d := fun h => hd (h ▸ hv)
      simp [this]
    · have hx' : x ∈ rest := by
        rcases List.mem_cons.mp hx with h | h
        · exact absurd h.symm hdx
        · exact h
      simp only [List.map_cons, objSet, hdx, if_false, ih hrest hx', hdx]

theorem countsOf_append_singleton (l : List String) (x : String) :
    countsOf (l ++ [x]) = objSet (countsOf l) x (((objLookup (countsOf l) x).getD 0) + 1) := by
  rw [countsOf, List.foldl_append]
  rfl

/-- `counts` is exactly the graph of the occurrence count over the distinct
values in first-seen order. -/
theorem countsOf_eq_graph (l : List String) :
    countsOf l = (dedupFirst l).map (fun v => (v, l.count v)) := by
  induction l using List.reverseRecOn with
  | nil => simp [countsOf]
  | append_singleton l x ih =>
    rw [countsOf_append_singleton, ih, dedupFirst_append_singleton]
    by_cases hx : x ∈ l
    · rw [if_pos hx]
      rw [objLookup_map_graph]
      rw [if_pos ((mem_dedupFirst l x).mpr hx)]
      rw [objSet_map_graph _ _ _ _ (dedupFirst_nodup l) ((mem_dedupFirst l x).mpr hx)]
      refine List.map_congr_left ?_
      intro v hv
      by_cases hvx : v = x
      · subst hvx
        simp [List.count_append]
      · simp [hvx, List.count_append, List.count_singleton']
    · rw [if_neg hx]
      have hnx : x ∉ dedupFirst l := fun h => hx ((mem_dedupFirst l x).mp h)
      rw [objLookup_map_graph, if_neg hnx]
      rw [objSet_not_mem]
      · rw [List.map_append]
        congr 1
        · refine List.map_congr_left ?_
          intro v hv
          have hvx : v ≠ x := fun h => hx (h ▸ (mem_dedupFirst l v).mp hv)
          simp [List.count_append, List.count_singleton', hvx]
        · simp [List.count_append, List.count_singleton']
          exact List.count_eq_zero_of_not_mem hx
      · intro hc
        refine hnx ?_
        simpa [objKeys, List.map_map, Function.comp] using hc

theorem firstIdx_cons (y : String) (l : List String) (v : String) :
    firstIdx (y :: l) v = if y = v then 0 else firstIdx l v + 1 := by
  rw [firstIdx, List.findIdx_cons]
  by_cases h : y = v <;> simp [h, firstIdx]

/-- Filtering preserves the relative first-occurrence order of surviving
elements. -/
theorem filter_firstIdx_lt (p : String → Bool) (l : List String) (a b : String)
    (ha : a ∈ l.filter p) (hb : b ∈ l.filter p) :
    (firstIdx (l.filter p) a < firstIdx (l.filter p) b ↔ firstIdx l a < firstIdx l b) := by
  induction l with
  | nil => simp at ha
  | cons y rest ih =>
    by_cases hp : p y
    · rw [List.filter_cons_of_pos hp] at ha hb ⊢
      rcases eq_or_ne y a with rfl | hay
      · rcases eq_or_ne y b with rfl | hby
        · simp
        · simp [firstIdx_cons, hby]
      · rcases eq_or_ne y b with rfl | hby
        · simp [firstIdx_cons, hay]
        · have ha' : a ∈ rest.filter p := by
            rcases List.mem_cons.mp ha with h | h
            · exact absurd h.symm hay
            · exact h
          have hb' : b ∈ rest.filter p := by
            rcases List.mem_cons.mp hb with h | h
            · exact absurd h.symm hby
            · exact h
          simpa [firstIdx_cons, hay, hby, Nat.succ_lt_succ_iff] using ih ha' hb'
    · rw [List.filter_cons_of_neg hp] at ha hb ⊢
      have hay : y ≠ a := by
        rintro rfl
        exact hp (List.of_mem_filter ha)
      have hby : y ≠ b := by
        rintro rfl
        exact hp (List.of_mem_filter hb)
      simpa [firstIdx_cons, hay, hby, Nat.succ_lt_succ_iff] using ih ha hb

/-- Deduplication preserves the relative first-occurrence order. -/
theorem dedupFirst_firstIdx_lt (l : List String) (a b : String) (ha : a ∈ l) (hb : b ∈ l) :
    (firstIdx (dedupFirst l) a < firstIdx (dedupFirst l) b ↔ firstIdx l a < firstIdx l b) := by
  match l with
  | [] => simp at ha
  | v :: rest =>
    rw [dedupFirst_cons]
    rcases eq_or_ne v a with rfl | hav
    · rcases eq_or_ne v b with rfl | hbv
      · simp
      · simp [firstIdx_cons, hbv]
    · rcases eq_or_ne v b with rfl | hbv
      · simp [firstIdx_cons, hav]
      · have ha' : a ∈ rest := by
          rcases List.mem_cons.mp ha with h | h
          · exact absurd h.symm hav
          · exact h
        have hb' : b ∈ rest := by
          rcases List.mem_cons.mp hb with h | h
          · exact absurd h.symm hbv
          · exact h
        have hanv : a ≠ v := fun h => hav h.symm
        have hbnv : b ≠ v := fun h => hbv h.symm
        have haf : a ∈ rest.filter (fun y => y ≠ v) := by
          rw [List.mem_filter]
          exact ⟨ha', by simp [hanv]⟩
        have hbf : b ∈ rest.filter (fun y => y ≠ v) := by
          rw [List.mem_filter]
          exact ⟨hb', by simp [hbnv]⟩
        have step := dedupFirst_firstIdx_lt (rest.filter (fun y => y ≠ v)) a b haf hbf
        have step2 := filter_firstIdx_lt (fun y => decide (y ≠ v)) rest a b haf hbf
        simpa [firstIdx_cons, hav, hbv, Nat.succ_lt_succ_iff] using step.trans step2
termination_by l.length
decreasing_by
  simp only [List.length_cons]
  exact Nat.lt_succ_of_le (List.length_filter_le _ _)

/-- Relative first-occurrence order in a `filterMap` image mirrors the order
of the first sources producing those values. -/
theorem filterMap_firstIdx_mono {γ : Type} (u : γ → Option String) (ms : List γ) (a b : String)
    (ha : a ∈ ms.filterMap u) (hb : b ∈ ms.filterMap u)
    (hab : firstIdx (ms.filterMap u) a ≤ firstIdx (ms.filterMap u) b) :
    ms.findIdx (fun m => decide (u m = some a)) ≤ ms.findIdx (fun m => decide (u m = some b)) := by
  induction ms with
  | nil => simp at ha
  | cons m rest ih =>
    cases hu : u m with
    | none =>
      rw [List.filterMap_cons_none hu] at ha hb hab
      rw [List.findIdx_cons, List.findIdx_cons]
      simp only [hu]
      simpa [Nat.succ_le_succ_iff] using ih ha hb hab
    | some c =>
      rw [List.filterMap_cons_some hu] at ha hb hab
      rw [List.findIdx_cons, List.findIdx_cons]
      simp only [hu]
      by_cases hac : c = a
      · subst hac
        simp
      · have ha' : a ∈ rest.filterMap u := by
          rcases List.mem_cons.mp ha with h | h
          · exact absurd h.symm hac
          · exact h
        by_cases hbc : c = b
        · subst hbc
          rw [firstIdx_cons, if_neg hac, firstIdx_cons, if_pos rfl] at hab
          omega
        · have hb' : b ∈ rest.filterMap u := by
            rcases List.mem_cons.mp hb with h | h
            · exact absurd h.symm hbc
            · exact h
          rw [firstIdx_cons, if_neg hac, firstIdx_cons, if_neg hbc] at hab
          have heqa : (decide (some c = some a)) = false := by simp [hac]
          have heqb : (decide (some c = some b)) = false := by simp [hbc]
          rw [heqa, heqb]
          simpa [Nat.succ_le_succ_iff] using ih ha' hb' (Nat.le_of_succ_le_succ hab)

/-!
## The version comparator agrees with the lexicographic tuple order
-/

theorem compareVersionDesc_lt_iff (a b : String) :
    compareVersionDesc a b < 0 ↔ verKey b < verKey a := by
  simp only [compareVersionDesc, verKey]
  rw [Prod.Lex.lt_iff, Prod.Lex.lt_iff]
  split_ifs with h1 h2 h3 h4 h5 h6 <;> simp_all <;> omega

theorem versionLt_eq (a b : String) : versionLt a b = decide (verKey b < verKey a) := by
  rw [versionLt]
  by_cases h : compareVersionDesc a b < 0
  · rw [decide_eq_true h, Eq.comm, decide_eq_true_eq]
    exact (compareVersionDesc_lt_iff a b).mp h
  · rw [decide_eq_false h, Eq.comm, decide_eq_false_iff_not]
    exact fun hc => h ((compareVersionDesc_lt_iff a b).mpr hc)

theorem data_devKey (k : String) : (devKey k).data = "dev:".data ++ k.data :=
  String.data_append _ _

theorem startsWithDev_devKey (k : String) : startsWithDev (devKey k) = true := by
  rw [startsWithDev, data_devKey]
  have h4 : ("dev:".data).length = 4 := rfl
  rw [decide_eq_true_eq, ← h4, List.take_left]

theorem stripDev_devKey (k : String) : stripDev (devKey k) = k := by
  rw [stripDev, if_pos (startsWithDev_devKey k), data_devKey]
  have h4 : ("dev:".data).length = 4 := rfl
  rw [← h4, List.drop_left]

theorem devKey_stripDev (k : String) (h : startsWithDev k = true) : devKey (stripDev k) = k := by
  rw [startsWithDev, decide_eq_true_eq] at h
  rw [stripDev, if_pos]
  · cases k with
    | mk d =>
      show String.mk ("dev:".data ++ d.drop 4) = String.mk d
      refine congrArg String.mk ?_
      conv_rhs => rw [← List.take_append_drop 4 d]
      rw [h]
  · rw [startsWithDev, decide_eq_true_eq]
    exact h

theorem devKey_inj (a b : String) (h : devKey a = devKey b) : a = b := by
  have := congrArg stripDev h
  rwa [stripDev_devKey, stripDev_devKey] at this

/-!
## Per-module step characterizations of the cross-module maps
-/

theorem objLookup_addEntry_self (map : Obj (Obj String)) (k name v : String) :
    objLookup (addEntry map k name v) k =
      some (objSet ((objLookup map k).getD []) name v) :=
  objLookup_objSet_self _ _ _

theorem objLookup_addEntry_ne (map : Obj (Obj String)) (k k₂ name v : String) (h : k ≠ k₂) :
    objLookup (addEntry map k name v) k₂ = objLookup map k₂ :=
  objLookup_objSet_ne _ _ _ _ h

theorem entriesFold_lookup_not_mem (es : List (String × String)) (name : String)
    (acc : Obj (Obj String)) (k : String) (h : k ∉ objKeys es) :
    objLookup (es.foldl (fun a kv => addEntry a kv.1 name kv.2) acc) k = objLookup acc k := by
  induction es generalizing acc with
  | nil => rfl
  | cons kv rest ih =>
    obtain ⟨k1, v1⟩ := kv
    simp only [objKeys_cons, List.mem_cons] at h
    rw [List.foldl_cons, ih _ (fun hc => h (Or.inr hc))]
    exact objLookup_addEntry_ne _ _ _ _ _ (fun hc => h (Or.inl hc.symm))

/-- One module's `scripts` (or `dependencies`) entries folded into a
cross-module map: the entry at `k` gains exactly the module's value at `k`. -/
theorem entriesFold_lookup (es : List (String × String)) (name : String)
    (acc : Obj (Obj String)) (k : String) (hnd : (objKeys es).Nodup) :
    objLookup (es.foldl (fun a kv => addEntry a kv.1 name kv.2) acc) k =
      match objLookup es k with
      | some v => some (objSet ((objLookup acc k).getD []) name v)
      | none => objLookup acc k := by
  induction es generalizing acc with
  | nil => rfl
  | cons kv rest ih =>
    obtain ⟨k1, v1⟩ := kv
    simp only [objKeys_cons, List.nodup_cons] at hnd
    by_cases hk : k1 = k
    · subst hk
      rw [List.foldl_cons, entriesFold_lookup_not_mem _ _ _ _ hnd.1,
          objLookup_addEntry_self]
      simp
    · rw [List.foldl_cons, ih _ hnd.2]
      have hacc : objLookup (addEntry acc k1 name v1) k = objLookup acc k :=
        objLookup_addEntry_ne _ _ _ _ _ hk
      simp only [objLookup_cons, hk, if_false, hacc]

theorem devFold_lookup_not_mem (es : List (String × String)) (name : String)
    (acc : Obj (Obj String)) (k : String)
    (h : ∀ r ∈ objKeys es, devKey r ≠ k) :
    objLookup (es.foldl (fun a kv => addEntry a (devKey kv.1) name kv.2) acc) k =
      objLookup acc k := by
  induction es generalizing acc with
  | nil => rfl
  | cons kv rest ih =>
    obtain ⟨k1, v1⟩ := kv
    rw [List.foldl_cons, ih _ (fun r hr => h r (List.mem_cons_of_mem _ hr))]
    exact objLookup_addEntry_ne _ _ _ _ _ (h k1 (List.mem_cons_self _ _))

/-- One module's `devDependencies` entries folded into the dependency map:
they live under `dev:`-namespaced keys. -/
theorem devFold_lookup (es : List (String × String)) (name : String)
    (acc : Obj (Obj String)) (k : String) (hnd : (objKeys es).Nodup) :
    objLookup (es.foldl (fun a kv => addEntry a (devKey kv.1) name kv.2) acc) k =
      match (if startsWithDev k then objLookup es (stripDev k) else none) with
      | some v => some (objSet ((objLookup acc k).getD []) name v)
      | none => objLookup acc k := by
  induction es generalizing acc with
  | nil =>
    cases h : startsWithDev k <;> simp [h]
  | cons kv rest ih =>
    obtain ⟨k1, v1⟩ := kv
    simp only [objKeys_cons, List.nodup_cons] at hnd
    by_cases hk : devKey k1 = k
    · subst hk
      rw [List.foldl_cons, devFold_lookup_not_mem _ _ _ _
          (fun r hr hc => hnd.1 ((devKey_inj r k1 hc) ▸ hr)),
          objLookup_addEntry_self]
      rw [if_pos (startsWithDev_devKey k1), stripDev_devKey]
      simp
    · rw [List.foldl_cons, ih _ hnd.2]
      have hacc : objLookup (addEntry acc (devKey k1) name v1) k = objLookup acc k :=
        objLookup_addEntry_ne _ _ _ _ _ hk
      rw [hacc]
      by_cases hsw : startsWithDev k
      · have hk1 : ¬ k1 = stripDev k := by
          rintro rfl
          exact hk (devKey_stripDev k hsw)
        rw [if_pos hsw, if_pos hsw, objLookup_cons, if_neg hk1]
      · rw [if_neg hsw, if_neg hsw]

theorem scriptStep_lookup (acc : Obj (Obj String)) (m : Module) (k : String)
    (hwf : PkgWF (pkgOf m)) :
    objLookup (scriptStep acc m) k =
      match scriptValueOf m k with
      | some v => some (objSet ((objLookup acc k).getD []) m.name v)
      | none => objLookup acc k := by
  rw [scriptStep, entriesFold_lookup _ _ _ _ hwf.1, scriptValueOf]

theorem depStep_lookup (acc : Obj (Obj String)) (m : Module) (k : String)
    (hwf : PkgWF (pkgOf m)) :
    objLookup (depStep acc m) k =
      match depValueOf m k with
      | some v => some (objSet ((objLookup acc k).getD []) m.name v)
      | none => objLookup acc k := by
  rw [depStep]
  rw [devFold_lookup _ _ _ _ hwf.2.2]
  rw [entriesFold_lookup _ _ _ _ hwf.2.1]
  rw [depValueOf]
  cases hdev : (if startsWithDev k then objLookup (pkgOf m).devDependencies (stripDev k) else none) with
  | some v =>
    cases hdep : objLookup (pkgOf m).dependencies k with
    | some w => simp [objSet_objSet_same]
    | none => simp
  | none =>
    cases hdep : objLookup (pkgOf m).dependencies k with
    | some w => simp
    | none => simp

/-- Generic characterization of folding per-module writes into a
cross-module map, for modules with pairwise distinct names. -/
theorem mapFold_lookup (contrib : Module → String → Option String)
    (step : Obj (Obj String) → Module → Obj (Obj String)) (k : String) :
    ∀ (ms : List Module) (acc : Obj (Obj String)),
    (∀ acc' m, m ∈ ms → objLookup (step acc' m) k =
      match contrib m k with
      | some v => some (objSet ((objLookup acc' k).getD []) m.name v)
      | none => objLookup acc' k) →
    (ms.map Module.name).Nodup →
    (∀ m ∈ ms, ∀ e, objLookup acc k = some e → m.name ∉ objKeys e) →
    objLookup (ms.foldl step acc) k =
      match objLookup acc k with
      | some e => some (e ++ ms.filterMap (fun m => (contrib m k).map (fun v => (m.name, v))))
      | none =>
        if ms.filterMap (fun m => (contrib m k).map (fun v => (m.name, v))) = [] then none
        else some (ms.filterMap (fun m => (contrib m k).map (fun v => (m.name, v)))) := by
  intro ms
  induction ms with
  | nil =>
    intro acc hstep hnames hfresh
    cases h : objLookup acc k <;> simp [h]
  | cons m rest ih =>
    intro acc hstep hnames hfresh
    simp only [List.map_cons, List.nodup_cons] at hnames
    rw [List.foldl_cons]
    cases hc : contrib m k with
    | none =>
      have hfn : (fun m' => (contrib m' k).map (fun v => (m'.name, v))) m = none := by
        simp only []
        rw [hc]
        rfl
      rw [List.filterMap_cons_none
            (f := fun m' => (contrib m' k).map (fun v => (m'.name, v))) hfn]
      have hstep' : objLookup (step acc m) k = objLookup acc k := by
        rw [hstep acc m (List.mem_cons_self _ _), hc]
      rw [ih (step acc m) (fun a' m' hm' => hstep a' m' (List.mem_cons_of_mem _ hm'))
            hnames.2 (fun m' hm' e he => hfresh m' (List.mem_cons_of_mem _ hm') e
              (by rw [← hstep']; exact he))]
      rw [hstep']
    | some v =>
      have hfs : (fun m' => (contrib m' k).map (fun v => (m'.name, v))) m = some (m.name, v) := by
        simp only []
        rw [hc]
        rfl
      rw [List.filterMap_cons_some
            (f := fun m' => (contrib m' k).map (fun v => (m'.name, v))) hfs]
      have hstep' : objLookup (step acc m) k =
          some (objSet ((objLookup acc k).getD []) m.name v) := by
        rw [hstep acc m (List.mem_cons_self _ _), hc]
      have hglobset : objSet ((objLookup acc k).getD []) m.name v =
          ((objLookup acc k).getD []) ++ [(m.name, v)] := by
        refine objSet_not_mem _ _ _ ?_
        cases he : objLookup acc k with
        | none => simp
        | some e =>
          simp only [he, Option.getD_some]
          exact hfresh m (List.mem_cons_self _ _) e he
      rw [ih (step acc m) (fun a' m' hm' => hstep a' m' (List.mem_cons_of_mem _ hm'))
            hnames.2 ?_]
      · rw [hstep', hglobset]
        cases he : objLookup acc k with
        | none => simp
        | some e => simp [he, List.append_assoc]
      · intro m' hm' e he
        rw [hstep', hglobset] at he
        have hee := he
        injection hee with hee
        rw [← hee]
        simp only [objKeys, List.map_append]
        rw [List.mem_append]
        rintro (hin | hin)
        · cases heacc : objLookup acc k with
          | none => rw [heacc] at hin; simp at hin
          | some e0 =>
            rw [heacc] at hin
            exact hfresh m' (List.mem_cons_of_mem _ hm') e0 heacc hin
        · simp at hin
          exact hnames.1 (hin ▸ (List.mem_map_of_mem Module.name hm'))

/-- `scriptsMap` holds, for each key, exactly the ordered module entries. -/
theorem scriptsMapOf_lookup (ms : List Module) (hwf : ModulesWF ms) (k : String) :
    objLookup (scriptsMapOf ms) k =
      if scriptEntryList ms k = [] then none else some (scriptEntryList ms k) := by
  rw [scriptsMapOf,
      mapFold_lookup scriptValueOf scriptStep k ms []
        (fun a' m hm => scriptStep_lookup a' m k (hwf.2 m hm)) hwf.1
        (fun m hm e he => by simp at he)]
  rfl

/-- `depsMap` holds, for each key, exactly the ordered module entries. -/
theorem depsMapOf_lookup (ms : List Module) (hwf : ModulesWF ms) (k : String) :
    objLookup (depsMapOf ms) k =
      if depEntryList ms k = [] then none else some (depEntryList ms k) := by
  rw [depsMapOf,
      mapFold_lookup depValueOf depStep k ms []
        (fun a' m hm => depStep_lookup a' m k (hwf.2 m hm)) hwf.1
        (fun m hm e he => by simp at he)]
  rfl

/-!
## Key distinctness of the built maps, and value lemmas that tolerate
module-name collisions
-/

theorem foldl_addEntry_keys_nodup (es : List (String × String)) (key : String → String)
    (name : String) (acc : Obj (Obj String)) (h : (objKeys acc).Nodup) :
    (objKeys (es.foldl (fun a kv => addEntry a (key kv.1) name kv.2) acc)).Nodup := by
  induction es generalizing acc with
  | nil => exact h
  | cons kv rest ih =>
    rw [List.foldl_cons]
    exact ih _ (objKeys_nodup_objSet _ _ _ h)

theorem scriptStep_keys_nodup (acc : Obj (Obj String)) (m : Module)
    (h : (objKeys acc).Nodup) : (objKeys (scriptStep acc m)).Nodup :=
  foldl_addEntry_keys_nodup _ (fun k => k) _ _ h

theorem depStep_keys_nodup (acc : Obj (Obj String)) (m : Module)
    (h : (objKeys acc).Nodup) : (objKeys (depStep acc m)).Nodup :=
  foldl_addEntry_keys_nodup _ devKey _ _
    (foldl_addEntry_keys_nodup _ (fun k => k) _ _ h)

theorem scriptsMapOf_keys_nodup (ms : List Module) : (objKeys (scriptsMapOf ms)).Nodup := by
  rw [scriptsMapOf]
  generalize hacc : ([] : Obj (Obj String)) = acc
  have h : (objKeys acc).Nodup := by rw [← hacc]; simp
  clear hacc
  induction ms generalizing acc with
  | nil => exact h
  | cons m rest ih => exact ih _ (scriptStep_keys_nodup _ _ h)

theorem depsMapOf_keys_nodup (ms : List Module) : (objKeys (depsMapOf ms)).Nodup := by
  rw [depsMapOf]
  generalize hacc : ([] : Obj (Obj String)) = acc
  have h : (objKeys acc).Nodup := by rw [← hacc]; simp
  clear hacc
  induction ms generalizing acc with
  | nil => exact h
  | cons m rest ih => exact ih _ (depStep_keys_nodup _ _ h)

/-- In an object with distinct keys, a member pair is determined by lookup. -/
theorem lookup_unique_of_nodup {α : Type} (o : Obj α) (k : String) (v w : α)
    (hn : (objKeys o).Nodup) (hmem : (k, v) ∈ o) (hl : objLookup o k = some w) : v = w := by
  have := mem_objLookup_of_nodup o k v hn hmem
  rw [this] at hl
  injection hl

/-- An entry's values stay constant under writes of the constant value. -/
theorem objSet_values_const (e : Obj String) (n r : String)
    (h : ∀ p ∈ e, p.2 = r) : ∀ p ∈ objSet e n r, p.2 = r := by
  intro p hp
  have hv : p.2 ∈ objValues (objSet e n r) := List.mem_map_of_mem Prod.snd hp
  rcases objValues_objSet_subset _ _ _ _ hv with hin | heq
  · rcases List.mem_map.mp hin with ⟨q, hq, hqe⟩
    rw [← hqe]
    exact h q hq
  · exact heq

theorem objSet_ne_nil {α : Type} (o : Obj α) (k : String) (v : α) : objSet o k v ≠ [] := by
  cases o with
  | nil => simp
  | cons hd tl =>
    obtain ⟨k', v'⟩ := hd
    rw [objSet]
    by_cases h : k' = k <;> simp [h]

/-- Folding module writes whose contribution at `k` is always the constant
`r` (or nothing): the entry at `k` stays `none` or becomes a nonempty
all-`r` entry — with no assumption on module names. -/
theorem mapFold_values_const (contrib : Module → String → Option String)
    (step : Obj (Obj String) → Module → Obj (Obj String)) (k r : String) :
    ∀ (ms : List Module) (acc : Obj (Obj String)),
    (∀ acc' m, m ∈ ms → objLookup (step acc' m) k =
      match contrib m k with
      | some v => some (objSet ((objLookup acc' k).getD []) m.name v)
      | none => objLookup acc' k) →
    (∀ m ∈ ms, contrib m k = none ∨ contrib m k = some r) →
    (objLookup acc k = none ∨
      ∃ e, objLookup acc k = some e ∧ e ≠ [] ∧ ∀ p ∈ e, p.2 = r) →
    (objLookup (ms.foldl step acc) k = none ∨
      ∃ e, objLookup (ms.foldl step acc) k = some e ∧ e ≠ [] ∧ ∀ p ∈ e, p.2 = r) := by
  intro ms
  induction ms with
  | nil => intro acc _ _ hacc; exact hacc
  | cons m rest ih =>
    intro acc hstep hall hacc
    rw [List.foldl_cons]
    refine ih _ (fun a' m' hm' => hstep a' m' (List.mem_cons_of_mem _ hm'))
      (fun m' hm' => hall m' (List.mem_cons_of_mem _ hm')) ?_
    rcases hall m (List.mem_cons_self _ _) with hc | hc
    · rw [hstep acc m (List.mem_cons_self _ _), hc]
      exact hacc
    · rw [hstep acc m (List.mem_cons_self _ _), hc]
      right
      refine ⟨_, rfl, objSet_ne_nil _ _ _, ?_⟩
      rcases hacc with hnone | ⟨e, he, hne, hval⟩
      · rw [hnone]
        exact objSet_values_const _ _ _ (by simp)
      · rw [he]
        exact objSet_values_const _ _ _ hval

/-- Once some module has contributed at `k`, the entry is present. -/
theorem mapFold_isSome (contrib : Module → String → Option String)
    (step : Obj (Obj String) → Module → Obj (Obj String)) (k : String) :
    ∀ (ms : List Module) (acc : Obj (Obj String)),
    (∀ acc' m, m ∈ ms → objLookup (step acc' m) k =
      match contrib m k with
      | some v => some (objSet ((objLookup acc' k).getD []) m.name v)
      | none => objLookup acc' k) →
    ((∃ m ∈ ms, (contrib m k).isSome) ∨ (objLookup acc k).isSome) →
    (objLookup (ms.foldl step acc) k).isSome := by
  intro ms
  induction ms with
  | nil =>
    intro acc _ hex
    rcases hex with ⟨m, hm, _⟩ | h
    · simp at hm
    · exact h
  | cons m rest ih =>
    intro acc hstep hex
    rw [List.foldl_cons]
    refine ih _ (fun a' m' hm' => hstep a' m' (List.mem_cons_of_mem _ hm')) ?_
    rcases hex with ⟨m', hm', hc⟩ | hsome
    · rcases List.mem_cons.mp hm' with rfl | hm'
      · right
        rw [hstep acc m' (List.mem_cons_self _ _)]
        cases hcc : contrib m' k with
        | none => rw [hcc] at hc; simp at hc
        | some v => simp
      · exact Or.inl ⟨m', hm', hc⟩
    · right
      rw [hstep acc m (List.mem_cons_self _ _)]
      cases hcc : contrib m k with
      | none => exact hsome
      | some v => simp

/-- A key is present in a built cross-module map only if some module
contributed to it — with no assumption on module names. -/
theorem mapFold_key_from_contrib (contrib : Module → String → Option String)
    (step : Obj (Obj String) → Module → Obj (Obj String)) (k : String) :
    ∀ (ms : List Module) (acc : Obj (Obj String)),
    (∀ acc' m, m ∈ ms → objLookup (step acc' m) k =
      match contrib m k with
      | some v => some (objSet ((objLookup acc' k).getD []) m.name v)
      | none => objLookup acc' k) →
    objLookup acc k = none →
    (objLookup (ms.foldl step acc) k).isSome →
    ∃ m ∈ ms, (contrib m k).isSome := by
  intro ms
  induction ms with
  | nil =>
    intro acc _ hacc hsome
    rw [List.foldl_nil, hacc] at hsome
    simp at hsome
  | cons m rest ih =>
    intro acc hstep hacc hsome
    rw [List.foldl_cons] at hsome
    cases hc : contrib m k with
    | some v => exact ⟨m, List.mem_cons_self _ _, by rw [hc]; rfl⟩
    | none =>
      have hstep' : objLookup (step acc m) k = objLookup acc k := by
        rw [hstep acc m (List.mem_cons_self _ _), hc]
      obtain ⟨m', hm', hc'⟩ := ih (step acc m)
        (fun a' m' hm' => hstep a' m' (List.mem_cons_of_mem _ hm'))
        (hstep'.trans hacc) hsome
      exact ⟨m', List.mem_cons_of_mem _ hm', hc'⟩

/-!
## Head of the sorted counts / sorted versions
-/

theorem firstIdx_pos_of_ne_head (y : String) (l : List String) (v : String) (h : y ≠ v) :
    0 < firstIdx (y :: l) v := by
  rw [firstIdx_cons, if_neg h]
  exact Nat.succ_pos _

theorem firstIdx_append_cons_self (D1 D2 : List String) (r : String) (h : r ∉ D1) :
    firstIdx (D1 ++ r :: D2) r = D1.length := by
  induction D1 with
  | nil => simp [firstIdx_cons]
  | cons d rest ih =>
    simp only [List.mem_cons, not_or] at h
    rw [List.cons_append, firstIdx_cons, if_neg (fun hc => h.1 hc.symm), ih h.2,
        List.length_cons]

theorem firstIdx_append_cons_gt (D1 D2 : List String) (r v : String)
    (hvr : v ≠ r) (h : v ∉ D1) : D1.length < firstIdx (D1 ++ r :: D2) v := by
  induction D1 with
  | nil =>
    simp only [List.nil_append, List.length_nil]
    exact firstIdx_pos_of_ne_head r D2 v (fun hc => hvr hc.symm)
  | cons d rest ih =>
    simp only [List.mem_cons, not_or] at h
    rw [List.cons_append, firstIdx_cons, if_neg (fun hc => h.1 hc.symm), List.length_cons]
    exact Nat.succ_lt_succ (ih h.2)

/-- Specification of the head of the stably sorted count entries: the value
with the highest occurrence count, earliest first occurrence on ties. -/
theorem countsSort_head_spec (vs : List String) (hne : vs ≠ []) :
    ∃ rec c,
      (stableSort (fun a b => decide (a.2 > b.2)) (countsOf vs)).headD ("", 0) = (rec, c) ∧
      rec ∈ vs ∧ c = vs.count rec ∧
      (∀ v ∈ vs, vs.count v ≤ c) ∧
      (∀ v ∈ vs, vs.count v = c → v ≠ rec → firstIdx vs rec < firstIdx vs v) := by
  have hD : dedupFirst vs ≠ [] := fun h => hne ((dedupFirst_eq_nil_iff vs).mp h)
  have hpos : 0 < (stableSort (fun a b => decide (a.2 > b.2)) (countsOf vs)).length := by
    rw [length_stableSort, countsOf_eq_graph, List.length_map]
    exact List.length_pos.mpr hD
  have hhead : (stableSort (fun a b => decide (a.2 > b.2)) (countsOf vs)).head? =
      some ((stableSort (fun a b => decide (a.2 > b.2)) (countsOf vs)).headD ("", 0)) := by
    cases hs : stableSort (fun a b => decide (a.2 > b.2)) (countsOf vs) with
    | nil => rw [hs] at hpos; simp at hpos
    | cons x xs => simp
  obtain ⟨L1, L2, hdec, hmax, hfirst⟩ :=
    stableSort_head_max (fun a b => decide (a.2 > b.2)) (Prod.snd (α := String) (β := Nat))
      (fun a b => rfl) (countsOf vs) _ hhead
  set hd := (stableSort (fun a b => decide (a.2 > b.2)) (countsOf vs)).headD ("", 0) with hhd
  rw [countsOf_eq_graph] at hdec
  obtain ⟨D1, Drest, hD12, hmap1, hmap2⟩ := List.append_eq_map_iff.mp hdec.symm
  cases Drest with
  | nil => simp at hmap2
  | cons z D2 =>
    rw [List.map_cons] at hmap2
    have hinj := (List.cons.injEq _ _ _ _).mp hmap2
    have hz1 : z = hd.1 := congrArg Prod.fst hinj.1
    have hz2 : vs.count z = hd.2 := congrArg Prod.snd hinj.1
    refine ⟨hd.1, hd.2, rfl, ?_, ?_, ?_, ?_⟩
    · rw [← hz1]
      refine (mem_dedupFirst vs z).mp ?_
      rw [hD12]
      simp
    · rw [← hz1, hz2]
    · intro v hv
      have hvD : v ∈ dedupFirst vs := (mem_dedupFirst vs v).mpr hv
      have hmem : (v, vs.count v) ∈ (dedupFirst vs).map (fun v => (v, vs.count v)) :=
        List.mem_map_of_mem _ hvD
      rw [← countsOf_eq_graph] at hmem
      exact hmax _ hmem
    · intro v hv hvc hvrec
      have hvD : v ∈ dedupFirst vs := (mem_dedupFirst vs v).mpr hv
      have hvnot1 : v ∉ D1 := by
        intro hvin
        have hLmem : (v, vs.count v) ∈ L1 := by
          rw [← hmap1]
          exact List.mem_map_of_mem _ hvin
        have := hfirst _ hLmem
        simp only at this
        omega
      have hrecnot1 : hd.1 ∉ D1 := by
        intro hin
        have hLmem : (hd.1, vs.count hd.1) ∈ L1 := by
          rw [← hmap1]
          exact List.mem_map_of_mem _ hin
        have := hfirst _ hLmem
        simp only at this
        have hcount : vs.count hd.1 = hd.2 := hz1 ▸ hz2
        omega
      have hrecD : hd.1 ∈ dedupFirst vs := by
        rw [← hz1, hD12]
        simp
      have hidx : firstIdx (dedupFirst vs) hd.1 < firstIdx (dedupFirst vs) v := by
        rw [hD12, ← hz1, firstIdx_append_cons_self D1 D2 z (hz1 ▸ hrecnot1)]
        exact firstIdx_append_cons_gt D1 D2 z v (hz1 ▸ hvrec) hvnot1
      exact (dedupFirst_firstIdx_lt vs hd.1 v ((mem_dedupFirst vs hd.1).mp hrecD) hv).mp hidx

/-- Specification of the head of the stably version-sorted distinct values:
the value with the greatest (major, minor, patch) tuple, earliest first
occurrence on equal tuples. -/
theorem depSort_head_spec (vs : List String) (hne : vs ≠ []) :
    ∃ rec,
      (stableSort versionLt (dedupFirst vs)).headD "" = rec ∧
      rec ∈ vs ∧
      (∀ v ∈ vs, verKey v ≤ verKey rec) ∧
      (∀ v ∈ vs, verKey v = verKey rec → v ≠ rec → firstIdx vs rec < firstIdx vs v) := by
  have hD : dedupFirst vs ≠ [] := fun h => hne ((dedupFirst_eq_nil_iff vs).mp h)
  have hpos : 0 < (stableSort versionLt (dedupFirst vs)).length := by
    rw [length_stableSort]
    exact List.length_pos.mpr hD
  have hhead : (stableSort versionLt (dedupFirst vs)).head? =
      some ((stableSort versionLt (dedupFirst vs)).headD "") := by
    cases hs : stableSort versionLt (dedupFirst vs) with
    | nil => rw [hs] at hpos; simp at hpos
    | cons x xs => simp
  obtain ⟨D1, D2, hdec, hmax, hfirst⟩ :=
    stableSort_head_max versionLt verKey versionLt_eq (dedupFirst vs) _ hhead
  set rec := (stableSort versionLt (dedupFirst vs)).headD "" with hrec
  have hDnodup := dedupFirst_nodup vs
  rw [hdec] at hDnodup
  have hrecD : rec ∈ dedupFirst vs := by rw [hdec]; simp
  refine ⟨rec, rfl, (mem_dedupFirst vs rec).mp hrecD, ?_, ?_⟩
  · intro v hv
    exact hmax v ((mem_dedupFirst vs v).mpr hv)
  · intro v hv hvk hvrec
    have hvD : v ∈ dedupFirst vs := (mem_dedupFirst vs v).mpr hv
    have hvnot1 : v ∉ D1 := by
      intro hvin
      have := hfirst v hvin
      rw [hvk] at this
      exact lt_irrefl _ this
    have hrecnot1 : rec ∉ D1 := by
      intro hin
      have := hfirst rec hin
      exact lt_irrefl _ this
    have hidx : firstIdx (dedupFirst vs) rec < firstIdx (dedupFirst vs) v := by
      rw [hdec, firstIdx_append_cons_self D1 D2 rec hrecnot1]
      exact firstIdx_append_cons_gt D1 D2 rec v hvrec hvnot1
    exact (dedupFirst_firstIdx_lt vs rec v ((mem_dedupFirst vs rec).mp hrecD) hv).mp hidx

/-!
## Suggestion-level glue
-/

theorem analyzeModules_scriptSuggestions (ms : List Module) :
    (analyzeModules ms).scriptSuggestions = buildScriptSuggestions (scriptsMapOf ms) := rfl

theorem analyzeModules_depSuggestions (ms : List Module) :
    (analyzeModules ms).depSuggestions = buildDepSuggestions (depsMapOf ms) := rfl

theorem scriptSugKey_scriptSuggestionFor (k : String) (mv : Obj String) :
    scriptSugKey (scriptSuggestionFor k mv) = k := by
  rw [scriptSuggestionFor]
  by_cases h : (dedupFirst (objValues mv)).length = 1 <;> simp [h, scriptSugKey]

theorem depSugKey_depSuggestionFor (k : String) (mv : Obj String) :
    depSugKey (depSuggestionFor k mv) = k := by
  rw [depSuggestionFor]
  by_cases h : (dedupFirst (objValues mv)).length = 1 <;> simp [h, depSugKey]

theorem scriptSuggestionFor_mem (map : Obj (Obj String)) (k : String) (mv : Obj String)
    (h : objLookup map k = some mv) :
    scriptSuggestionFor k mv ∈ buildScriptSuggestions map := by
  rw [buildScriptSuggestions]
  exact List.mem_map_of_mem _ (objLookup_mem _ _ _ h)

theorem depSuggestionFor_mem (map : Obj (Obj String)) (k : String) (mv : Obj String)
    (h : objLookup map k = some mv) :
    depSuggestionFor k mv ∈ buildDepSuggestions map := by
  rw [buildDepSuggestions]
  exact List.mem_map_of_mem _ (objLookup_mem _ _ _ h)

theorem buildScriptSuggestions_unique (map : Obj (Obj String)) (hnd : (objKeys map).Nodup)
    (k : String) (mv : Obj String) (h : objLookup map k = some mv) (s : ScriptSuggestion)
    (hs : s ∈ buildScriptSuggestions map) (hk : scriptSugKey s = k) :
    s = scriptSuggestionFor k mv := by
  rw [buildScriptSuggestions] at hs
  obtain ⟨⟨k', mv'⟩, hmem, heq⟩ := List.mem_map.mp hs
  rw [← heq] at hk ⊢
  have hk' : k' = k := by rw [← hk, scriptSugKey_scriptSuggestionFor]
  subst hk'
  rw [lookup_unique_of_nodup map k' mv' mv hnd hmem h]

theorem buildDepSuggestions_unique (map : Obj (Obj String)) (hnd : (objKeys map).Nodup)
    (k : String) (mv : Obj String) (h : objLookup map k = some mv) (s : DepSuggestion)
    (hs : s ∈ buildDepSuggestions map) (hk : depSugKey s = k) :
    s = depSuggestionFor k mv := by
  rw [buildDepSuggestions] at hs
  obtain ⟨⟨k', mv'⟩, hmem, heq⟩ := List.mem_map.mp hs
  rw [← heq] at hk ⊢
  have hk' : k' = k := by rw [← hk, depSugKey_depSuggestionFor]
  subst hk'
  rw [lookup_unique_of_nodup map k' mv' mv hnd hmem h]

theorem scriptSuggestionFor_decision_eq (k : String) (mv : Obj String)
    (hconf : (dedupFirst (objValues mv)).length ≠ 1) :
    scriptSuggestionFor k mv = ScriptSuggestion.decision k
      ((stableSort (fun a b => decide (a.2 > b.2)) (countsOf (objValues mv))).headD ("", 0)).1
      (countsOf (objValues mv)) mv := by
  rw [scriptSuggestionFor, if_neg hconf]

theorem depSuggestionFor_decision_eq (k : String) (mv : Obj String)
    (hconf : (dedupFirst (objValues mv)).length ≠ 1) :
    depSuggestionFor k mv = DepSuggestion.decision k
      ((stableSort versionLt (dedupFirst (objValues mv))).headD "")
      (stableSort versionLt (dedupFirst (objValues mv))) mv := by
  rw [depSuggestionFor, if_neg hconf]

theorem scriptSuggestionFor_uniform_eq (k : String) (mv : Obj String)
    (h : (dedupFirst (objValues mv)).length = 1) :
    scriptSuggestionFor k mv =
      ScriptSuggestion.uniform k ((dedupFirst (objValues mv)).headD "") mv := by
  rw [scriptSuggestionFor, if_pos h]

theorem depSuggestionFor_uniform_eq (k : String) (mv : Obj String)
    (h : (dedupFirst (objValues mv)).length = 1) :
    depSuggestionFor k mv =
      DepSuggestion.uniform k ((dedupFirst (objValues mv)).headD "") mv := by
  rw [depSuggestionFor, if_pos h]

/-!
## From map entries back to modules
-/

theorem entryList_values_snd (u : Module → Option String) (ms : List Module) :
    (ms.filterMap (fun m => (u m).map (fun v => (m.name, v)))).map Prod.snd =
      ms.filterMap u := by
  induction ms with
  | nil => rfl
  | cons m rest ih =>
    cases hu : u m <;> simp [List.filterMap_cons, hu, ih]

theorem count_filterMap_eq (u : Module → Option String) (ms : List Module) (v : String) :
    (ms.filterMap u).count v = (ms.filter (fun m => decide (u m = some v))).length := by
  induction ms with
  | nil => rfl
  | cons m rest ih =>
    cases hu : u m with
    | none => simp [List.filterMap_cons, hu, ih, List.filter_cons]
    | some w =>
      by_cases hw : w = v
      · subst hw
        simp [List.filterMap_cons, hu, List.count_cons, ih, List.filter_cons]
      · have hw' : ¬ v = w := fun h => hw h.symm
        simp [List.filterMap_cons, hu, List.count_cons, hw, hw', ih, List.filter_cons]

theorem mem_filterMap_of_uses (u : Module → Option String) (ms : List Module)
    (m : Module) (v : String) (hm : m ∈ ms) (hv : u m = some v) :
    v ∈ ms.filterMap u :=
  List.mem_filterMap.mpr ⟨m, hm, hv⟩

/-- Claim C2: for every script key with at least two distinct values across
the collected modules, reconciliation emits a Decision recommending the value
used by the most modules, first-seen in collection order on ties. -/
theorem c2_script_recommendation (ms : List Module) (k : String) (hwf : ModulesWF ms)
    (hconf : ∃ v1 v2, UsesScript ms k v1 ∧ UsesScript ms k v2 ∧ v1 ≠ v2) :
    ScriptDecisionSpec ms k := by
  obtain ⟨v1, v2, ⟨m1, hm1, hv1⟩, ⟨m2, hm2, hv2⟩, hne⟩ := hconf
  have hv1m : v1 ∈ ms.filterMap (fun m => scriptValueOf m k) :=
    mem_filterMap_of_uses _ ms m1 v1 hm1 hv1
  have hv2m : v2 ∈ ms.filterMap (fun m => scriptValueOf m k) :=
    mem_filterMap_of_uses _ ms m2 v2 hm2 hv2
  have hEntry : scriptEntryList ms k ≠ [] := by
    intro h
    have hmm : (m1.name, v1) ∈ scriptEntryList ms k :=
      List.mem_filterMap.mpr ⟨m1, hm1, by rw [hv1]; rfl⟩
    rw [h] at hmm
    simp at hmm
  have hlook : objLookup (scriptsMapOf ms) k = some (scriptEntryList ms k) := by
    rw [scriptsMapOf_lookup ms hwf k, if_neg hEntry]
  have hvals : objValues (scriptEntryList ms k) = ms.filterMap (fun m => scriptValueOf m k) := by
    rw [scriptEntryList]
    exact entryList_values_snd _ ms
  have hvsne : objValues (scriptEntryList ms k) ≠ [] := by
    rw [hvals]
    intro h
    rw [h] at hv1m
    simp at hv1m
  have hconf' : (dedupFirst (objValues (scriptEntryList ms k))).length ≠ 1 := by
    rw [hvals]
    exact dedupFirst_length_ne_one _ v1 v2 hv1m hv2m hne
  obtain ⟨rec, c, hhd, hrecvs, hc, hmax, htie⟩ :=
    countsSort_head_spec (objValues (scriptEntryList ms k)) hvsne
  have hfst : ((stableSort (fun a b => decide (a.2 > b.2))
      (countsOf (objValues (scriptEntryList ms k)))).headD ("", 0)).1 = rec := by
    rw [hhd]
  have hdeceq : scriptSuggestionFor k (scriptEntryList ms k) =
      ScriptSuggestion.decision k rec (countsOf (objValues (scriptEntryList ms k)))
        (scriptEntryList ms k) := by
    rw [scriptSuggestionFor_decision_eq k _ hconf', hfst]
  have hcount : ∀ v, scriptUserCount ms k v =
      (objValues (scriptEntryList ms k)).count v := by
    intro v
    rw [hvals, count_filterMap_eq]
    rfl
  refine ⟨rec, scriptEntryList ms k, hlook, ?_, ?_, ?_, ?_, ?_⟩
  · rw [analyzeModules_scriptSuggestions, ← hdeceq]
    exact scriptSuggestionFor_mem _ _ _ hlook
  · intro s hs hk
    rw [analyzeModules_scriptSuggestions] at hs
    rw [buildScriptSuggestions_unique (scriptsMapOf ms) (scriptsMapOf_keys_nodup ms)
        k _ hlook s hs hk, hdeceq]
  · rw [hvals] at hrecvs
    obtain ⟨m, hm, hvm⟩ := List.mem_filterMap.mp hrecvs
    exact ⟨m, hm, hvm⟩
  · intro v hv
    obtain ⟨m, hm, hvm⟩ := hv
    have hvvs : v ∈ objValues (scriptEntryList ms k) := by
      rw [hvals]
      exact mem_filterMap_of_uses _ ms m v hm hvm
    rw [hcount, hcount, ← hc]
    exact hmax v hvvs
  · intro v hv hvcnt
    obtain ⟨m, hm, hvm⟩ := hv
    have hvvs : v ∈ objValues (scriptEntryList ms k) := by
      rw [hvals]
      exact mem_filterMap_of_uses _ ms m v hm hvm
    by_cases hvrec : v = rec
    · subst hvrec
      exact le_refl _
    · have hcnt' : (objValues (scriptEntryList ms k)).count v = c := by
        rw [← hcount, hvcnt, hcount, ← hc]
      have hlt := htie v hvvs hcnt' hvrec
      have hmono := filterMap_firstIdx_mono (fun m => scriptValueOf m k) ms rec v
        (by rw [← hvals]; exact hrecvs) (by rw [← hvals]; exact hvvs)
        (by rw [← hvals]; exact le_of_lt hlt)
      exact hmono

/-- Claim C1: for every dependency key (dev-namespaced included) with at
least two distinct values across the collected modules, reconciliation emits
a Decision recommending the value with the greatest (major, minor, patch)
tuple, earliest in collection order on equal tuples. -/
theorem c1_dep_recommendation (ms : List Module) (k : String) (hwf : ModulesWF ms)
    (hconf : ∃ v1 v2, UsesDep ms k v1 ∧ UsesDep ms k v2 ∧ v1 ≠ v2) :
    DepDecisionSpec ms k := by
  obtain ⟨v1, v2, ⟨m1, hm1, hv1⟩, ⟨m2, hm2, hv2⟩, hne⟩ := hconf
  have hv1m : v1 ∈ ms.filterMap (fun m => depValueOf m k) :=
    mem_filterMap_of_uses _ ms m1 v1 hm1 hv1
  have hv2m : v2 ∈ ms.filterMap (fun m => depValueOf m k) :=
    mem_filterMap_of_uses _ ms m2 v2 hm2 hv2
  have hEntry : depEntryList ms k ≠ [] := by
    intro h
    have hmm : (m1.name, v1) ∈ depEntryList ms k :=
      List.mem_filterMap.mpr ⟨m1, hm1, by rw [hv1]; rfl⟩
    rw [h] at hmm
    simp at hmm
  have hlook : objLookup (depsMapOf ms) k = some (depEntryList ms k) := by
    rw [depsMapOf_lookup ms hwf k, if_neg hEntry]
  have hvals : objValues (depEntryList ms k) = ms.filterMap (fun m => depValueOf m k) := by
    rw [depEntryList]
    exact entryList_values_snd _ ms
  have hvsne : objValues (depEntryList ms k) ≠ [] := by
    rw [hvals]
    intro h
    rw [h] at hv1m
    simp at hv1m
  have hconf' : (dedupFirst (objValues (depEntryList ms k))).length ≠ 1 := by
    rw [hvals]
    exact dedupFirst_length_ne_one _ v1 v2 hv1m hv2m hne
  obtain ⟨rec, hhd, hrecvs, hmax, htie⟩ :=
    depSort_head_spec (objValues (depEntryList ms k)) hvsne
  have hdeceq : depSuggestionFor k (depEntryList ms k) =
      DepSuggestion.decision k rec
        (stableSort versionLt (dedupFirst (objValues (depEntryList ms k))))
        (depEntryList ms k) := by
    rw [depSuggestionFor_decision_eq k _ hconf', hhd]
  refine ⟨rec, depEntryList ms k, hlook, ?_, ?_, ?_, ?_, ?_⟩
  · rw [analyzeModules_depSuggestions, ← hdeceq]
    exact depSuggestionFor_mem _ _ _ hlook
  · intro s hs hk
    rw [analyzeModules_depSuggestions] at hs
    rw [buildDepSuggestions_unique (depsMapOf ms) (depsMapOf_keys_nodup ms)
        k _ hlook s hs hk, hdeceq]
  · rw [hvals] at hrecvs
    obtain ⟨m, hm, hvm⟩ := List.mem_filterMap.mp hrecvs
    exact ⟨m, hm, hvm⟩
  · intro v hv
    obtain ⟨m, hm, hvm⟩ := hv
    have hvvs : v ∈ objValues (depEntryList ms k) := by
      rw [hvals]
      exact mem_filterMap_of_uses _ ms m v hm hvm
    exact hmax v hvvs
  · intro v hv hvk
    obtain ⟨m, hm, hvm⟩ := hv
    have hvvs : v ∈ objValues (depEntryList ms k) := by
      rw [hvals]
      exact mem_filterMap_of_uses _ ms m v hm hvm
    by_cases hvrec : v = rec
    · subst hvrec
      exact le_refl _
    · have hlt := htie v hvvs hvk hvrec
      exact filterMap_firstIdx_mono (fun m => depValueOf m k) ms rec v
        (by rw [← hvals]; exact hrecvs) (by rw [← hvals]; exact hvvs)
        (by rw [← hvals]; exact le_of_lt hlt)

/-!
## Characterization of `harmonizePkg`
-/

theorem foldl_objSet_lookup_not_mem (sd : Obj String) (o : Obj String) (k : String)
    (h : k ∉ objKeys sd) :
    objLookup (sd.foldl (fun o kv => objSet o kv.1 kv.2) o) k = objLookup o k := by
  induction sd generalizing o with
  | nil => rfl
  | cons kv rest ih =>
    obtain ⟨k1, v1⟩ := kv
    simp only [objKeys_cons, List.mem_cons, not_or] at h
    rw [List.foldl_cons, ih _ h.2]
    exact objLookup_objSet_ne _ _ _ _ (fun hc => h.1 hc.symm)

/-- Folding the script decisions over a scripts map: a decided key reads the
recommended value, everything else is untouched. -/
theorem foldl_objSet_lookup (sd : Obj String) (hnd : (objKeys sd).Nodup)
    (o : Obj String) (k : String) :
    objLookup (sd.foldl (fun o kv => objSet o kv.1 kv.2) o) k =
      match objLookup sd k with
      | some r => some r
      | none => objLookup o k := by
  induction sd generalizing o with
  | nil => rfl
  | cons kv rest ih =>
    obtain ⟨k1, v1⟩ := kv
    simp only [objKeys_cons, List.nodup_cons] at hnd
    by_cases hk : k1 = k
    · subst hk
      rw [List.foldl_cons, foldl_objSet_lookup_not_mem _ _ _ hnd.1,
          objLookup_objSet_self]
      simp
    · rw [List.foldl_cons, ih hnd.2]
      have : objLookup (objSet o k1 v1) k = objLookup o k :=
        objLookup_objSet_ne _ _ _ _ hk
      simp only [objLookup_cons, hk, if_false, this]

theorem depApply_fst_lookup_not_mem (dd : Obj String)
    (p : Obj String × Obj String) (k : String)
    (h : ∀ k1 ∈ objKeys dd, k1 ≠ k) :
    objLookup (dd.foldl depApplyStep p).1 k = objLookup p.1 k := by
  induction dd generalizing p with
  | nil => rfl
  | cons kv rest ih =>
    obtain ⟨k1, r1⟩ := kv
    rw [List.foldl_cons, ih _ (fun k2 h2 => h k2 (List.mem_cons_of_mem _ h2))]
    rw [depApplyStep]
    by_cases hsw : startsWithDev k1
    · rw [if_pos hsw]
      by_cases ht : jsTruthy (objLookup p.2 (stripDev k1)) <;> simp [ht]
    · rw [if_neg hsw]
      by_cases ht : jsTruthy (objLookup p.1 k1)
      · rw [if_pos ht]
        exact objLookup_objSet_ne _ _ _ _ (h k1 (List.mem_cons_self _ _))
      · rw [if_neg ht]

theorem depApply_snd_lookup_not_mem (dd : Obj String)
    (p : Obj String × Obj String) (k : String)
    (h : ∀ k1 ∈ objKeys dd, k1 ≠ devKey k) :
    objLookup (dd.foldl depApplyStep p).2 k = objLookup p.2 k := by
  induction dd generalizing p with
  | nil => rfl
  | cons kv rest ih =>
    obtain ⟨k1, r1⟩ := kv
    rw [List.foldl_cons, ih _ (fun k2 h2 => h k2 (List.mem_cons_of_mem _ h2))]
    rw [depApplyStep]
    by_cases hsw : startsWithDev k1
    · rw [if_pos hsw]
      by_cases ht : jsTruthy (objLookup p.2 (stripDev k1))
      · rw [if_pos ht]
        refine objLookup_objSet_ne _ _ _ _ ?_
        intro hc
        exact h k1 (List.mem_cons_self _ _) (by rw [← hc, devKey_stripDev k1 hsw])
      · rw [if_neg ht]
    · rw [if_neg hsw]
      by_cases ht : jsTruthy (objLookup p.1 k1) <;> simp [ht]

/-- Applying the dependency decisions: the runtime scope at key `k` is
rewritten to the recommendation exactly when a non-`dev:` decision for `k`
exists and the existing value is truthy. -/
theorem depApply_fst_lookup (dd : Obj String) (hnd : (objKeys dd).Nodup)
    (p : Obj String × Obj String) (k : String) :
    objLookup (dd.foldl depApplyStep p).1 k =
      match (if startsWithDev k then none else objLookup dd k) with
      | some r => if jsTruthy (objLookup p.1 k) then some r else objLookup p.1 k
      | none => objLookup p.1 k := by
  induction dd generalizing p with
  | nil =>
    cases hsw : startsWithDev k <;> simp [hsw]
  | cons kv rest ih =>
    obtain ⟨k1, r1⟩ := kv
    simp only [objKeys_cons, List.nodup_cons] at hnd
    by_cases hk : k1 = k
    · subst hk
      by_cases hsw : startsWithDev k1
      · rw [List.foldl_cons, ih hnd.2]
        rw [depApplyStep, if_pos hsw]
        by_cases ht : jsTruthy (objLookup p.2 (stripDev k1))
        · rw [if_pos ht]
          simp [hsw]
        · rw [if_neg ht]
          simp [hsw]
      · rw [List.foldl_cons, depApply_fst_lookup_not_mem rest _ k1
            (fun k2 h2 hc => hnd.1 (hc ▸ h2))]
        rw [if_neg hsw, objLookup_cons, if_pos rfl]
        rw [depApplyStep, if_neg hsw]
        by_cases ht : jsTruthy (objLookup p.1 k1)
        · rw [if_pos ht]
          simp [objLookup_objSet_self, ht]
        · rw [if_neg ht]
          simp [ht]
    · rw [List.foldl_cons, ih hnd.2]
      have hp1 : objLookup (depApplyStep p (k1, r1)).1 k = objLookup p.1 k := by
        rw [depApplyStep]
        by_cases hsw1 : startsWithDev k1
        · rw [if_pos hsw1]
          by_cases ht : jsTruthy (objLookup p.2 (stripDev k1)) <;> simp [ht]
        · rw [if_neg hsw1]
          by_cases ht : jsTruthy (objLookup p.1 k1)
          · rw [if_pos ht]
            exact objLookup_objSet_ne _ _ _ _ hk
          · rw [if_neg ht]
      rw [hp1]
      by_cases hsw : startsWithDev k
      · rw [if_pos hsw, if_pos hsw]
      · rw [if_neg hsw, if_neg hsw, objLookup_cons, if_neg hk]

/-- Applying the dependency decisions: the dev scope at key `k` is rewritten
to the recommendation exactly when a decision for `dev:k` exists and the
existing value is truthy. -/
theorem depApply_snd_lookup (dd : Obj String) (hnd : (objKeys dd).Nodup)
    (p : Obj String × Obj String) (k : String) :
    objLookup (dd.foldl depApplyStep p).2 k =
      match objLookup dd (devKey k) with
      | some r => if jsTruthy (objLookup p.2 k) then some r else objLookup p.2 k
      | none => objLookup p.2 k := by
  induction dd generalizing p with
  | nil => simp
  | cons kv rest ih =>
    obtain ⟨k1, r1⟩ := kv
    simp only [objKeys_cons, List.nodup_cons] at hnd
    by_cases hk : k1 = devKey k
    · subst hk
      rw [List.foldl_cons, depApply_snd_lookup_not_mem rest _ k
          (fun k2 h2 hc => hnd.1 (hc ▸ h2))]
      rw [objLookup_cons, if_pos rfl]
      rw [depApplyStep, if_pos (startsWithDev_devKey k), stripDev_devKey]
      by_cases ht : jsTruthy (objLookup p.2 k)
      · rw [if_pos ht]
        simp [objLookup_objSet_self, ht]
      · rw [if_neg ht]
        simp [ht]
    · rw [List.foldl_cons, ih hnd.2]
      have hp2 : objLookup (depApplyStep p (k1, r1)).2 k = objLookup p.2 k := by
        rw [depApplyStep]
        by_cases hsw1 : startsWithDev k1
        · rw [if_pos hsw1]
          by_cases ht : jsTruthy (objLookup p.2 (stripDev k1))
          · rw [if_pos ht]
            refine objLookup_objSet_ne _ _ _ _ ?_
            intro hc
            exact hk (by rw [← devKey_stripDev k1 hsw1, hc])
          · rw [if_neg ht]
        · rw [if_neg hsw1]
          by_cases ht : jsTruthy (objLookup p.1 k1) <;> simp [ht]
      rw [hp2, objLookup_cons, if_neg hk]

theorem harmonizePkg_scripts_lookup (sd dd : Obj String) (m : Module) (k : String)
    (hnd : (objKeys sd).Nodup) :
    objLookup (harmonizePkg sd dd m).scripts k =
      match objLookup sd k with
      | some r => some r
      | none => objLookup (pkgOf m).scripts k := by
  rw [harmonizePkg]
  exact foldl_objSet_lookup sd hnd _ k

theorem harmonizePkg_deps_lookup (sd dd : Obj String) (m : Module) (k : String)
    (hnd : (objKeys dd).Nodup) :
    objLookup (harmonizePkg sd dd m).dependencies k =
      match (if startsWithDev k then none else objLookup dd k) with
      | some r => if jsTruthy (objLookup (pkgOf m).dependencies k) then some r
                  else objLookup (pkgOf m).dependencies k
      | none => objLookup (pkgOf m).dependencies k := by
  rw [harmonizePkg]
  exact depApply_fst_lookup dd hnd _ k

theorem harmonizePkg_devDeps_lookup (sd dd : Obj String) (m : Module) (k : String)
    (hnd : (objKeys dd).Nodup) :
    objLookup (harmonizePkg sd dd m).devDependencies k =
      match objLookup dd (devKey k) with
      | some r => if jsTruthy (objLookup (pkgOf m).devDependencies k) then some r
                  else objLookup (pkgOf m).devDependencies k
      | none => objLookup (pkgOf m).devDependencies k := by
  rw [harmonizePkg]
  exact depApply_snd_lookup dd hnd _ k

/-!
## Decision maps and key preservation
-/

theorem jsTruthy_isSome (a : Option String) (h : jsTruthy a = true) :
    ∃ v, a = some v ∧ v ≠ "" := by
  cases a with
  | none => simp [jsTruthy] at h
  | some s =>
    refine ⟨s, rfl, ?_⟩
    simpa [jsTruthy] using h

theorem jsTruthy_some_ne (v : String) (h : v ≠ "") : jsTruthy (some v) = true := by
  simpa [jsTruthy]

theorem depApplyStep_keys (p : Obj String × Obj String) (kv : String × String) :
    objKeys (depApplyStep p kv).1 = objKeys p.1 ∧
    objKeys (depApplyStep p kv).2 = objKeys p.2 := by
  rw [depApplyStep]
  by_cases hsw : startsWithDev kv.1
  · rw [if_pos hsw]
    by_cases ht : jsTruthy (objLookup p.2 (stripDev kv.1))
    · rw [if_pos ht]
      obtain ⟨v, hv, _⟩ := jsTruthy_isSome _ ht
      have hmem : stripDev kv.1 ∈ objKeys p.2 := by
        rw [← objLookup_isSome_iff, hv]
        rfl
      exact ⟨rfl, objKeys_objSet_mem _ _ _ hmem⟩
    · rw [if_neg ht]
      exact ⟨rfl, rfl⟩
  · rw [if_neg hsw]
    by_cases ht : jsTruthy (objLookup p.1 kv.1)
    · rw [if_pos ht]
      obtain ⟨v, hv, _⟩ := jsTruthy_isSome _ ht
      have hmem : kv.1 ∈ objKeys p.1 := by
        rw [← objLookup_isSome_iff, hv]
        rfl
      exact ⟨objKeys_objSet_mem _ _ _ hmem, rfl⟩
    · rw [if_neg ht]
      exact ⟨rfl, rfl⟩

theorem depApply_keys (dd : Obj String) (p : Obj String × Obj String) :
    objKeys (dd.foldl depApplyStep p).1 = objKeys p.1 ∧
    objKeys (dd.foldl depApplyStep p).2 = objKeys p.2 := by
  induction dd generalizing p with
  | nil => exact ⟨rfl, rfl⟩
  | cons kv rest ih =>
    rw [List.foldl_cons]
    obtain ⟨h1, h2⟩ := ih (depApplyStep p kv)
    obtain ⟨g1, g2⟩ := depApplyStep_keys p kv
    exact ⟨h1.trans g1, h2.trans g2⟩

theorem harmonizePkg_deps_keys (sd dd : Obj String) (m : Module) :
    objKeys (harmonizePkg sd dd m).dependencies = objKeys (pkgOf m).dependencies ∧
    objKeys (harmonizePkg sd dd m).devDependencies = objKeys (pkgOf m).devDependencies := by
  rw [harmonizePkg]
  exact depApply_keys dd _

theorem foldl_objSet_keys_nodup_pairs (sd : Obj String) (o : Obj String)
    (h : (objKeys o).Nodup) :
    (objKeys (sd.foldl (fun o kv => objSet o kv.1 kv.2) o)).Nodup := by
  induction sd generalizing o with
  | nil => exact h
  | cons kv rest ih =>
    rw [List.foldl_cons]
    exact ih _ (objKeys_nodup_objSet _ _ _ h)

theorem harmonizePkg_WF (sd dd : Obj String) (m : Module) (h : PkgWF (pkgOf m)) :
    PkgWF (harmonizePkg sd dd m) := by
  obtain ⟨hkeys1, hkeys2⟩ := harmonizePkg_deps_keys sd dd m
  refine ⟨?_, ?_, ?_⟩
  · rw [harmonizePkg]
    exact foldl_objSet_keys_nodup_pairs sd _ h.1
  · rw [hkeys1]
    exact h.2.1
  · rw [hkeys2]
    exact h.2.2

theorem scriptDecisionsOf_keys_nodup (sugs : List ScriptSuggestion) :
    (objKeys (scriptDecisionsOf sugs)).Nodup := by
  rw [scriptDecisionsOf]
  generalize hacc : ([] : Obj String) = acc
  have h : (objKeys acc).Nodup := by rw [← hacc]; simp
  clear hacc
  induction sugs generalizing acc with
  | nil => exact h
  | cons s rest ih =>
    rw [List.foldl_cons]
    cases s with
    | uniform k v mv => exact ih _ h
    | decision k r var mv => exact ih _ (objKeys_nodup_objSet _ _ _ h)

theorem depDecisionsOf_keys_nodup (sugs : List DepSuggestion) :
    (objKeys (depDecisionsOf sugs)).Nodup := by
  rw [depDecisionsOf]
  generalize hacc : ([] : Obj String) = acc
  have h : (objKeys acc).Nodup := by rw [← hacc]; simp
  clear hacc
  induction sugs generalizing acc with
  | nil => exact h
  | cons s rest ih =>
    rw [List.foldl_cons]
    cases s with
    | uniform k v mv => exact ih _ h
    | decision k r var mv => exact ih _ (objKeys_nodup_objSet _ _ _ h)

theorem scriptDecisionsOf_lookup_not_mem (sugs : List ScriptSuggestion) (acc : Obj String)
    (k : String) (h : ∀ s ∈ sugs, scriptSugKey s ≠ k) :
    objLookup (sugs.foldl (fun acc s =>
      match s with
      | .decision k r _ _ => objSet acc k r
      | .uniform _ _ _ => acc) acc) k = objLookup acc k := by
  induction sugs generalizing acc with
  | nil => rfl
  | cons s rest ih =>
    rw [List.foldl_cons]
    rw [ih _ (fun s' hs' => h s' (List.mem_cons_of_mem _ hs'))]
    cases s with
    | uniform k' v mv => rfl
    | decision k' r var mv =>
      exact objLookup_objSet_ne _ _ _ _ (h _ (List.mem_cons_self _ _))

theorem depDecisionsOf_lookup_not_mem (sugs : List DepSuggestion) (acc : Obj String)
    (k : String) (h : ∀ s ∈ sugs, depSugKey s ≠ k) :
    objLookup (sugs.foldl (fun acc s =>
      match s with
      | .decision k r _ _ => objSet acc k r
      | .uniform _ _ _ => acc) acc) k = objLookup acc k := by
  induction sugs generalizing acc with
  | nil => rfl
  | cons s rest ih =>
    rw [List.foldl_cons]
    rw [ih _ (fun s' hs' => h s' (List.mem_cons_of_mem _ hs'))]
    cases s with
    | uniform k' v mv => rfl
    | decision k' r var mv =>
      exact objLookup_objSet_ne _ _ _ _ (h _ (List.mem_cons_self _ _))

theorem scriptDecisionsOf_lookup_mem (sugs : List ScriptSuggestion)
    (hnd : (sugs.map scriptSugKey).Nodup) (k rec : String) (var : Obj Nat) (mv : Obj String)
    (hmem : ScriptSuggestion.decision k rec var mv ∈ sugs) :
    objLookup (scriptDecisionsOf sugs) k = some rec := by
  rw [scriptDecisionsOf]
  generalize hacc : ([] : Obj String) = acc
  clear hacc
  induction sugs generalizing acc with
  | nil => simp at hmem
  | cons s rest ih =>
    simp only [List.map_cons, List.nodup_cons] at hnd
    rcases List.mem_cons.mp hmem with rfl | hmem'
    · rw [List.foldl_cons]
      rw [scriptDecisionsOf_lookup_not_mem rest _ k (fun s' hs' hc => hnd.1 (by
        have hmm : scriptSugKey s' ∈ rest.map scriptSugKey :=
          List.mem_map_of_mem scriptSugKey hs'
        rw [hc] at hmm
        exact hmm))]
      exact objLookup_objSet_self _ _ _
    · rw [List.foldl_cons]
      exact ih hnd.2 hmem' _

theorem depDecisionsOf_lookup_mem (sugs : List DepSuggestion)
    (hnd : (sugs.map depSugKey).Nodup) (k rec : String) (var : List String) (mv : Obj String)
    (hmem : DepSuggestion.decision k rec var mv ∈ sugs) :
    objLookup (depDecisionsOf sugs) k = some rec := by
  rw [depDecisionsOf]
  generalize hacc : ([] : Obj String) = acc
  clear hacc
  induction sugs generalizing acc with
  | nil => simp at hmem
  | cons s rest ih =>
    simp only [List.map_cons, List.nodup_cons] at hnd
    rcases List.mem_cons.mp hmem with rfl | hmem'
    · rw [List.foldl_cons]
      rw [depDecisionsOf_lookup_not_mem rest _ k (fun s' hs' hc => hnd.1 (by
        have hmm : depSugKey s' ∈ rest.map depSugKey :=
          List.mem_map_of_mem depSugKey hs'
        rw [hc] at hmm
        exact hmm))]
      exact objLookup_objSet_self _ _ _
    · rw [List.foldl_cons]
      exact ih hnd.2 hmem' _

theorem buildScriptSuggestions_keys (map : Obj (Obj String)) :
    (buildScriptSuggestions map).map scriptSugKey = objKeys map := by
  rw [buildScriptSuggestions, objKeys, List.map_map]
  exact List.map_congr_left (fun kv _ => scriptSugKey_scriptSuggestionFor kv.1 kv.2)

theorem buildDepSuggestions_keys (map : Obj (Obj String)) :
    (buildDepSuggestions map).map depSugKey = objKeys map := by
  rw [buildDepSuggestions, objKeys, List.map_map]
  exact List.map_congr_left (fun kv _ => depSugKey_depSuggestionFor kv.1 kv.2)

theorem pipelineScriptDecisions_keys_nodup (ms : List Module) :
    (objKeys (pipelineScriptDecisions ms)).Nodup :=
  scriptDecisionsOf_keys_nodup _

theorem pipelineDepDecisions_keys_nodup (ms : List Module) :
    (objKeys (pipelineDepDecisions ms)).Nodup :=
  depDecisionsOf_keys_nodup _

theorem foldl_objSet_source {β : Type} (f : β → String) (g : β → PackageJson)
    (l : List β) (acc : Obj PackageJson) (p : String) (x : PackageJson)
    (h : objLookup (l.foldl (fun acc b => objSet acc (f b) (g b)) acc) p = some x) :
    objLookup acc p = some x ∨ ∃ b ∈ l, f b = p ∧ g b = x := by
  induction l generalizing acc with
  | nil => exact Or.inl h
  | cons b rest ih =>
    rw [List.foldl_cons] at h
    rcases ih _ h with hacc | ⟨b', hb', hfb', hgb'⟩
    · by_cases hfp : f b = p
      · rw [← hfp, objLookup_objSet_self] at hacc
        injection hacc with hacc
        exact Or.inr ⟨b, List.mem_cons_self _ _, hfp, hacc⟩
      · rw [objLookup_objSet_ne _ _ _ _ hfp] at hacc
        exact Or.inl hacc
    · exact Or.inr ⟨b', List.mem_cons_of_mem _ hb', hfb', hgb'⟩

/-- Every harmonized manifest emitted by `analyzeAndBuildHarmonized` is the
per-module harmonization of one of the collected modules. -/
theorem harmonizedPackageJsons_source (ms : List Module) (p : String) (pkg : PackageJson)
    (h : objLookup (analyzeAndBuildHarmonized ms).harmonizedPackageJsons p = some pkg) :
    ∃ m ∈ ms, m.path = p ∧ pkg = pipelineHarmonized ms m := by
  have h' := foldl_objSet_source Module.path
    (fun m => harmonizePkg (pipelineScriptDecisions ms) (pipelineDepDecisions ms) m)
    ms [] p pkg h
  rcases h' with hacc | ⟨m, hm, hp, hg⟩
  · simp at hacc
  · exact ⟨m, hm, hp, hg.symm⟩

theorem depScopeSpec_holds (ms : List Module) (m : Module) : DepScopeSpec ms m := by
  intro k
  have hdd := pipelineDepDecisions_keys_nodup ms
  have hfst := harmonizePkg_deps_lookup (pipelineScriptDecisions ms)
    (pipelineDepDecisions ms) m k hdd
  have hsnd := harmonizePkg_devDeps_lookup (pipelineScriptDecisions ms)
    (pipelineDepDecisions ms) m k hdd
  refine ⟨?_, ?_, ?_, ?_⟩
  · intro hnone
    rw [pipelineHarmonized, hfst, hnone]
    cases hsc : (if startsWithDev k then none else objLookup (pipelineDepDecisions ms) k) with
    | none => simp
    | some r => simp [jsTruthy]
  · intro hnone
    rw [pipelineHarmonized, hsnd, hnone]
    cases hsc : objLookup (pipelineDepDecisions ms) (devKey k) with
    | none => simp
    | some r => simp [jsTruthy]
  · intro hne
    rw [pipelineHarmonized, hfst] at hne ⊢
    cases hsc : (if startsWithDev k then none else objLookup (pipelineDepDecisions ms) k) with
    | none => rw [hsc] at hne; simp at hne
    | some r =>
      rw [hsc] at hne
      dsimp only at hne ⊢
      by_cases ht : jsTruthy (objLookup (pkgOf m).dependencies k)
      · obtain ⟨v, hv, hvne⟩ := jsTruthy_isSome _ ht
        have hsw : startsWithDev k = false := by
          cases hsw : startsWithDev k
          · rfl
          · rw [hsw] at hsc; simp at hsc
        have hscl : objLookup (pipelineDepDecisions ms) k = some r := by
          rw [hsw] at hsc
          simpa using hsc
        exact ⟨hsw, v, r, hv, hvne, hscl, by rw [if_pos ht]⟩
      · rw [if_neg ht] at hne
        exact absurd rfl hne
  · intro hne
    rw [pipelineHarmonized, hsnd] at hne ⊢
    cases hsc : objLookup (pipelineDepDecisions ms) (devKey k) with
    | none => rw [hsc] at hne; simp at hne
    | some r =>
      rw [hsc] at hne
      dsimp only at hne ⊢
      by_cases ht : jsTruthy (objLookup (pkgOf m).devDependencies k)
      · obtain ⟨v, hv, hvne⟩ := jsTruthy_isSome _ ht
        exact ⟨v, r, hv, hvne, rfl, by rw [if_pos ht]⟩
      · rw [if_neg ht] at hne
        exact absurd rfl hne

/-- Claim C4: dependency decisions respect presence and scope; an absent
dependency or devDependency key is never added to a module. -/
theorem c4_dep_scope (ms : List Module) (m : Module) (hm : m ∈ ms) : DepScopeSpec ms m :=
  depScopeSpec_holds ms m

/-- Amended claim C3: dependency scopes never gain a key; script decisions
are written into every module unconditionally. -/
theorem c3_amended_no_new_dep_keys (ms : List Module) (m : Module) (hm : m ∈ ms) :
    HarmonizeKeySpec ms m := by
  refine ⟨?_, ?_, ?_⟩
  · intro k hnone
    exact ((depScopeSpec_holds ms m) k).1 hnone
  · intro k hnone
    exact ((depScopeSpec_holds ms m) k).2.1 hnone
  · intro k r hdec
    rw [pipelineHarmonized, harmonizePkg_scripts_lookup _ _ _ _
        (pipelineScriptDecisions_keys_nodup ms), hdec]

/-!
## Inversion of emitted decisions, and the re-run analysis
-/

theorem buildScriptSuggestions_decision_inv (map : Obj (Obj String)) (k rec : String)
    (var : Obj Nat) (mv : Obj String)
    (h : ScriptSuggestion.decision k rec var mv ∈ buildScriptSuggestions map) :
    (k, mv) ∈ map ∧ var = countsOf (objValues mv) ∧
    (dedupFirst (objValues mv)).length ≠ 1 := by
  obtain ⟨⟨k', mv'⟩, hmem, heq⟩ := List.mem_map.mp h
  by_cases hc : (dedupFirst (objValues mv')).length = 1
  · rw [scriptSuggestionFor_uniform_eq _ _ hc] at heq
    simp at heq
  · rw [scriptSuggestionFor_decision_eq _ _ hc] at heq
    injection heq with h1 h2 h3 h4
    subst h1
    subst h4
    exact ⟨hmem, h3.symm, hc⟩

theorem buildDepSuggestions_decision_inv (map : Obj (Obj String)) (k rec : String)
    (var : List String) (mv : Obj String)
    (h : DepSuggestion.decision k rec var mv ∈ buildDepSuggestions map) :
    (k, mv) ∈ map ∧ var = stableSort versionLt (dedupFirst (objValues mv)) ∧
    rec = (stableSort versionLt (dedupFirst (objValues mv))).headD "" ∧
    (dedupFirst (objValues mv)).length ≠ 1 := by
  obtain ⟨⟨k', mv'⟩, hmem, heq⟩ := List.mem_map.mp h
  by_cases hc : (dedupFirst (objValues mv')).length = 1
  · rw [depSuggestionFor_uniform_eq _ _ hc] at heq
    simp at heq
  · rw [depSuggestionFor_decision_eq _ _ hc] at heq
    injection heq with h1 h2 h3 h4
    subst h1
    subst h4
    exact ⟨hmem, h3.symm, h2.symm, hc⟩

theorem objValues_all_of_entries (e : Obj String) (r : String)
    (h : ∀ p ∈ e, p.2 = r) : ∀ x ∈ objValues e, x = r := by
  intro x hx
  obtain ⟨p, hp, hpx⟩ := List.mem_map.mp hx
  rw [← hpx]
  exact h p hp

theorem objValues_ne_nil {α : Type} (e : Obj α) (h : e ≠ []) : objValues e ≠ [] := by
  cases e with
  | nil => exact absurd rfl h
  | cons hd tl => simp [objValues]

/-- The modules a re-collection sees after one apply run. -/
theorem harmonizedModules_eq (ms : List Module) :
    harmonizedModules ms =
      ms.map (fun m => { m with packageJson := some (pipelineHarmonized ms m) }) := rfl

/-- After harmonization, a module's contribution to the dependency map at a
decided key is the recommended version exactly where it contributed before —
provided its dependency values are truthy and no runtime dependency name is
`dev:`-prefixed. -/
theorem harmonized_depValueOf (ms : List Module) (m : Module) (k rec : String)
    (hnem : (∀ kv ∈ (pkgOf m).dependencies, kv.2 ≠ "") ∧
      (∀ kv ∈ (pkgOf m).devDependencies, kv.2 ≠ ""))
    (hndm : ∀ kv ∈ (pkgOf m).dependencies, startsWithDev kv.1 = false)
    (hdd : objLookup (pipelineDepDecisions ms) k = some rec) :
    depValueOf ({ m with packageJson := some (pipelineHarmonized ms m) }) k =
      if (depValueOf m k).isSome then some rec else none := by
  have hpkg : pkgOf ({ m with packageJson := some (pipelineHarmonized ms m) }) =
      pipelineHarmonized ms m := rfl
  have hndk : (objKeys (pipelineDepDecisions ms)).Nodup :=
    pipelineDepDecisions_keys_nodup ms
  have hdepsnone_of_dev : startsWithDev k = true →
      objLookup (pkgOf m).dependencies k = none := by
    intro hsw
    cases hd : objLookup (pkgOf m).dependencies k with
    | none => rfl
    | some v =>
      have hfalse := hndm (k, v) (objLookup_mem _ _ _ hd)
      rw [hfalse] at hsw
      simp at hsw
  have hharmdeps : objLookup (pipelineHarmonized ms m).dependencies k =
      match (if startsWithDev k then none else objLookup (pipelineDepDecisions ms) k) with
      | some r => if jsTruthy (objLookup (pkgOf m).dependencies k) then some r
                  else objLookup (pkgOf m).dependencies k
      | none => objLookup (pkgOf m).dependencies k := by
    rw [pipelineHarmonized]
    exact harmonizePkg_deps_lookup _ _ _ _ hndk
  by_cases hsw : startsWithDev k
  · -- dev-namespaced key: only the devDependencies scope is relevant
    have hdeps : objLookup (pipelineHarmonized ms m).dependencies k =
        objLookup (pkgOf m).dependencies k := by
      rw [hharmdeps, if_pos hsw]
    cases hd : objLookup (pkgOf m).devDependencies (stripDev k) with
    | some v =>
      have hvne : v ≠ "" := hnem.2 _ (objLookup_mem _ _ _ hd)
      have hharm : objLookup (pipelineHarmonized ms m).devDependencies (stripDev k) =
          some rec := by
        rw [pipelineHarmonized, harmonizePkg_devDeps_lookup _ _ _ _ hndk,
            devKey_stripDev k hsw, hdd]
        simp [hd, jsTruthy_some_ne v hvne]
      have hval : depValueOf m k = some v := by
        rw [depValueOf, if_pos hsw, hd]
      rw [hval]
      simp only [Option.isSome_some, if_true]
      rw [depValueOf, if_pos hsw, hpkg, hharm]
    | none =>
      have hharm : objLookup (pipelineHarmonized ms m).devDependencies (stripDev k) =
          none := by
        rw [pipelineHarmonized, harmonizePkg_devDeps_lookup _ _ _ _ hndk,
            devKey_stripDev k hsw, hdd]
        simp [hd, jsTruthy]
      have hval : depValueOf m k = none := by
        rw [depValueOf, if_pos hsw, hd]
        exact hdepsnone_of_dev hsw
      rw [hval]
      simp only [Option.isSome_none, if_false]
      rw [depValueOf, if_pos hsw, hpkg, hharm]
      rw [hdeps]
      exact hdepsnone_of_dev hsw
  · -- plain runtime key: only the dependencies scope is relevant
    cases hd : objLookup (pkgOf m).dependencies k with
    | some v =>
      have hvne : v ≠ "" := hnem.1 _ (objLookup_mem _ _ _ hd)
      have hharm : objLookup (pipelineHarmonized ms m).dependencies k = some rec := by
        rw [hharmdeps, if_neg hsw, hdd]
        simp [hd, jsTruthy_some_ne v hvne]
      have hval : depValueOf m k = some v := by
        rw [depValueOf, if_neg hsw, hd]
      rw [hval]
      simp only [Option.isSome_some, if_true]
      rw [depValueOf, if_neg hsw, hpkg, hharm]
    | none =>
      have hharm : objLookup (pipelineHarmonized ms m).dependencies k = none := by
        rw [hharmdeps, if_neg hsw, hdd]
        simp [hd, jsTruthy]
      have hval : depValueOf m k = none := by
        rw [depValueOf, if_neg hsw, hd]
      rw [hval]
      simp only [Option.isSome_none, if_false]
      rw [depValueOf, if_neg hsw, hpkg, hharm]
      rfl

/-- Amended claim C5: re-running reconciliation on a harmonized module set
turns every previously conflicting key Uniform at the recommended value,
provided every dependency value is truthy (non-empty) and no runtime
dependency name is `dev:`-prefixed. -/
theorem c5_amended_idempotent (ms : List Module)
    (hwf : ∀ m ∈ ms, PkgWF (pkgOf m))
    (hne : ∀ m ∈ ms, (∀ kv ∈ (pkgOf m).dependencies, kv.2 ≠ "") ∧
      (∀ kv ∈ (pkgOf m).devDependencies, kv.2 ≠ ""))
    (hnd : ∀ m ∈ ms, ∀ kv ∈ (pkgOf m).dependencies, startsWithDev kv.1 = false) :
    RerunUniformSpec ms := by
  have hrerun := harmonizedModules_eq ms
  have hwf' : ∀ m' ∈ harmonizedModules ms, PkgWF (pkgOf m') := by
    rw [hrerun]
    intro m' hm'
    obtain ⟨m, hm, rfl⟩ := List.mem_map.mp hm'
    exact harmonizePkg_WF _ _ _ (hwf m hm)
  constructor
  · -- script decisions become Uniform
    intro k rec var mv hdec
    rw [analyzeModules_scriptSuggestions] at hdec
    obtain ⟨hmem, hvar, hconf⟩ := buildScriptSuggestions_decision_inv _ _ _ _ _ hdec
    have hkeysnd : ((buildScriptSuggestions (scriptsMapOf ms)).map scriptSugKey).Nodup := by
      rw [buildScriptSuggestions_keys]
      exact scriptsMapOf_keys_nodup ms
    have hsd : objLookup (pipelineScriptDecisions ms) k = some rec :=
      scriptDecisionsOf_lookup_mem _ hkeysnd k rec var mv hdec
    have hall : ∀ m' ∈ harmonizedModules ms, scriptValueOf m' k = some rec := by
      rw [hrerun]
      intro m' hm'
      obtain ⟨m, hm, rfl⟩ := List.mem_map.mp hm'
      show objLookup (pipelineHarmonized ms m).scripts k = some rec
      rw [pipelineHarmonized, harmonizePkg_scripts_lookup _ _ _ _
        (pipelineScriptDecisions_keys_nodup ms), hsd]
    have hms_ne : ms ≠ [] := by
      intro hnil
      rw [hnil] at hmem
      simp [scriptsMapOf] at hmem
    obtain ⟨m0, hm0⟩ : ∃ m0, m0 ∈ ms := by
      cases ms with
      | nil => exact absurd rfl hms_ne
      | cons a l => exact ⟨a, List.mem_cons_self _ _⟩
    have hm0' : ({ m0 with packageJson := some (pipelineHarmonized ms m0) } : Module)
        ∈ harmonizedModules ms := by
      rw [hrerun]
      exact List.mem_map_of_mem _ hm0
    have hstep := fun a' m' hm' => scriptStep_lookup a' m' k (hwf' m' hm')
    have hsome := mapFold_isSome scriptValueOf scriptStep k (harmonizedModules ms) []
      hstep (Or.inl ⟨_, hm0', by rw [hall _ hm0']; rfl⟩)
    have hconst := mapFold_values_const scriptValueOf scriptStep k rec
      (harmonizedModules ms) [] hstep (fun m' hm' => Or.inr (hall m' hm')) (Or.inl rfl)
    rcases hconst with hnone | ⟨e, he, hene, hvals⟩
    · rw [hnone] at hsome
      simp at hsome
    · have hlook : objLookup (scriptsMapOf (harmonizedModules ms)) k = some e := he
      have hdedup : dedupFirst (objValues e) = [rec] :=
        dedupFirst_all_eq _ rec (objValues_ne_nil e hene)
          (objValues_all_of_entries e rec hvals)
      have hunif : scriptSuggestionFor k e = ScriptSuggestion.uniform k rec e := by
        rw [scriptSuggestionFor_uniform_eq k e (by rw [hdedup]; rfl), hdedup]
        rfl
      constructor
      · refine ⟨e, ?_⟩
        rw [analyzeModules_scriptSuggestions, ← hunif]
        exact scriptSuggestionFor_mem _ _ _ hlook
      · intro s hs hk
        rw [analyzeModules_scriptSuggestions] at hs
        refine ⟨e, ?_⟩
        rw [buildScriptSuggestions_unique _ (scriptsMapOf_keys_nodup _) k e hlook s hs hk,
            hunif]
  · -- dependency decisions become Uniform
    intro k rec var mv hdec
    rw [analyzeModules_depSuggestions] at hdec
    obtain ⟨hmem, hvar, hrece, hconf⟩ := buildDepSuggestions_decision_inv _ _ _ _ _ hdec
    have hkeysnd : ((buildDepSuggestions (depsMapOf ms)).map depSugKey).Nodup := by
      rw [buildDepSuggestions_keys]
      exact depsMapOf_keys_nodup ms
    have hdd : objLookup (pipelineDepDecisions ms) k = some rec :=
      depDecisionsOf_lookup_mem _ hkeysnd k rec var mv hdec
    have hallif : ∀ m ∈ ms,
        depValueOf ({ m with packageJson := some (pipelineHarmonized ms m) }) k =
          if (depValueOf m k).isSome then some rec else none := by
      intro m hm
      exact harmonized_depValueOf ms m k rec (hne m hm) (hnd m hm) hdd
    have hall : ∀ m' ∈ harmonizedModules ms,
        depValueOf m' k = none ∨ depValueOf m' k = some rec := by
      rw [hrerun]
      intro m' hm'
      obtain ⟨m, hm, rfl⟩ := List.mem_map.mp hm'
      rw [hallif m hm]
      by_cases hc : (depValueOf m k).isSome
      · rw [if_pos hc]
        exact Or.inr rfl
      · rw [if_neg hc]
        exact Or.inl rfl
    -- the key had a contributor, which still contributes after harmonization
    have hkmem : (objLookup (depsMapOf ms) k).isSome := by
      rw [objLookup_isSome_iff]
      exact List.mem_map_of_mem Prod.fst hmem
    obtain ⟨m1, hm1, hm1some⟩ := mapFold_key_from_contrib depValueOf depStep k ms []
      (fun a' m' hm' => depStep_lookup a' m' k (hwf m' hm')) rfl hkmem
    have hm1' : ({ m1 with packageJson := some (pipelineHarmonized ms m1) } : Module)
        ∈ harmonizedModules ms := by
      rw [hrerun]
      exact List.mem_map_of_mem _ hm1
    have hm1contrib :
        depValueOf ({ m1 with packageJson := some (pipelineHarmonized ms m1) }) k =
          some rec := by
      rw [hallif m1 hm1, if_pos hm1some]
    have hstep := fun a' m' hm' => depStep_lookup a' m' k (hwf' m' hm')
    have hsome := mapFold_isSome depValueOf depStep k (harmonizedModules ms) []
      hstep (Or.inl ⟨_, hm1', by rw [hm1contrib]; rfl⟩)
    have hconst := mapFold_values_const depValueOf depStep k rec
      (harmonizedModules ms) [] hstep hall (Or.inl rfl)
    rcases hconst with hnone | ⟨e, he, hene, hvals⟩
    · rw [hnone] at hsome
      simp at hsome
    · have hlook : objLookup (depsMapOf (harmonizedModules ms)) k = some e := he
      have hdedup : dedupFirst (objValues e) = [rec] :=
        dedupFirst_all_eq _ rec (objValues_ne_nil e hene)
          (objValues_all_of_entries e rec hvals)
      have hunif : depSuggestionFor k e = DepSuggestion.uniform k rec e := by
        rw [depSuggestionFor_uniform_eq k e (by rw [hdedup]; rfl), hdedup]
        rfl
      constructor
      · refine ⟨e, ?_⟩
        rw [analyzeModules_depSuggestions, ← hunif]
        exact depSuggestionFor_mem _ _ _ hlook
      · intro s hs hk
        rw [analyzeModules_depSuggestions] at hs
        refine ⟨e, ?_⟩
        rw [buildDepSuggestions_unique _ (depsMapOf_keys_nodup _) k e hlook s hs hk, hunif]

/-- Claim C10: when two collected modules share a name, the later one
overwrites the earlier one's value for every shared script and dependency
key, and the earlier contribution disappears from the entry, the value set
and the emitted suggestion. -/
theorem c10_name_collision (m1 m2 : Module) (hname : m1.name = m2.name)
    (hwf1 : PkgWF (pkgOf m1)) (hwf2 : PkgWF (pkgOf m2)) :
    NameCollisionSpec m1 m2 := by
  constructor
  · intro k v1 v2 h1 h2
    have hmap : objLookup (scriptsMapOf [m1, m2]) k = some [(m2.name, v2)] := by
      show objLookup (scriptStep (scriptStep [] m1) m2) k = some [(m2.name, v2)]
      rw [scriptStep_lookup _ _ _ hwf2, h2, scriptStep_lookup _ _ _ hwf1, h1]
      simp only [objLookup_nil, Option.getD_none, objSet_nil, Option.getD_some]
      rw [hname, objSet]
      simp
    refine ⟨hmap, ?_⟩
    intro s hs hk
    rw [analyzeModules_scriptSuggestions] at hs
    rw [buildScriptSuggestions_unique _ (scriptsMapOf_keys_nodup _) k _ hmap s hs hk]
    rw [scriptSuggestionFor_uniform_eq k _ (by simp [objValues, dedupFirst, dedupFuel])]
    simp [objValues, dedupFirst, dedupFuel]
  · intro k v1 v2 h1 h2
    have hmap : objLookup (depsMapOf [m1, m2]) k = some [(m2.name, v2)] := by
      show objLookup (depStep (depStep [] m1) m2) k = some [(m2.name, v2)]
      rw [depStep_lookup _ _ _ hwf2, h2, depStep_lookup _ _ _ hwf1, h1]
      simp only [objLookup_nil, Option.getD_none, objSet_nil, Option.getD_some]
      rw [hname, objSet]
      simp
    refine ⟨hmap, ?_⟩
    intro s hs hk
    rw [analyzeModules_depSuggestions] at hs
    rw [buildDepSuggestions_unique _ (depsMapOf_keys_nodup _) k _ hmap s hs hk]
    rw [depSuggestionFor_uniform_eq k _ (by simp [objValues, dedupFirst, dedupFuel])]
    simp [objValues, dedupFirst, dedupFuel]

/-- Amended claim C9: script decisions carry per-value module counts;
dependency decisions carry only the sorted list of distinct values. -/
theorem c9_amended_variant_info (ms : List Module) (hwf : ModulesWF ms) :
    VariantInfoSpec ms := by
  constructor
  · intro k rec var mv hdec v
    rw [analyzeModules_scriptSuggestions] at hdec
    obtain ⟨hmem, hvar, hconf⟩ := buildScriptSuggestions_decision_inv _ _ _ _ _ hdec
    have hlook : objLookup (scriptsMapOf ms) k = some mv :=
      mem_objLookup_of_nodup _ _ _ (scriptsMapOf_keys_nodup ms) hmem
    have hchar := scriptsMapOf_lookup ms hwf k
    rw [hlook] at hchar
    have hmv : mv = scriptEntryList ms k := by
      by_cases hnil : scriptEntryList ms k = []
      · rw [if_pos hnil] at hchar
        simp at hchar
      · rw [if_neg hnil] at hchar
        injection hchar
    have hvals : objValues mv = ms.filterMap (fun m => scriptValueOf m k) := by
      rw [hmv, scriptEntryList]
      exact entryList_values_snd _ ms
    rw [hvar, countsOf_eq_graph, objLookup_map_graph]
    have hcnt : scriptUserCount ms k v = (objValues mv).count v := by
      rw [hvals, count_filterMap_eq]
      rfl
    by_cases hvin : v ∈ dedupFirst (objValues mv)
    · rw [if_pos hvin]
      have hv0 : (objValues mv).count v ≠ 0 := by
        intro h0
        rw [List.count_eq_zero] at h0
        exact h0 ((mem_dedupFirst _ _).mp hvin)
      rw [if_neg (by rw [hcnt]; exact hv0), hcnt]
    · rw [if_neg hvin]
      have hv0 : (objValues mv).count v = 0 := by
        rw [List.count_eq_zero]
        intro hc
        exact hvin ((mem_dedupFirst _ _).mpr hc)
      rw [if_pos (by rw [hcnt]; exact hv0)]
  · intro k rec var mv hdec
    rw [analyzeModules_depSuggestions] at hdec
    obtain ⟨hmem, hvar, hrece, hconf⟩ := buildDepSuggestions_decision_inv _ _ _ _ _ hdec
    exact hvar

theorem scriptStep_empty (acc : Obj (Obj String)) (m : Module) (h : m.packageJson = none) :
    scriptStep acc m = acc := by
  have hp : pkgOf m = emptyPackageJson := by
    rw [pkgOf, h]
    rfl
  rw [scriptStep, hp]
  rfl

theorem depStep_empty (acc : Obj (Obj String)) (m : Module) (h : m.packageJson = none) :
    depStep acc m = acc := by
  have hp : pkgOf m = emptyPackageJson := by
    rw [pkgOf, h]
    rfl
  rw [depStep, hp]
  rfl

theorem foldl_eraseIdx_of_id {α σ : Type} (step : σ → α → σ) (l : List α) (i : Nat) (d : α)
    (hi : i < l.length) (hid : ∀ acc, step acc (l.getD i d) = acc) (init : σ) :
    l.foldl step init = (l.eraseIdx i).foldl step init := by
  induction l generalizing i init with
  | nil => simp at hi
  | cons a rest ih =>
    cases i with
    | zero =>
      have ha : step init a = init := hid init
      rw [List.foldl_cons, ha]
      rfl
    | succ j =>
      have hj : j < rest.length := Nat.lt_of_succ_lt_succ hi
      have hstep : ∀ acc, step acc (rest.getD j d) = acc := fun acc => hid acc
      rw [List.foldl_cons, ih j hj hstep]
      rfl

/-- Claim C7: a parse failure degrades the module to an empty contributor
and never aborts collection. -/
theorem c7_parse_failure (parse : String → Option PackageJson)
    (files : List (String × String)) (i : Nat) (hi : i < files.length)
    (hfail : parse (files.getD i ("", "")).2 = none) :
    ParseFailureSpec parse files i := by
  have hlen : (collectModules parse files).length = files.length :=
    List.length_map _ _
  have hget : (collectModules parse files).getD i defaultCollectedModule =
      moduleOfParsed (files.getD i ("", "")).1 (parse (files.getD i ("", "")).2) := by
    rw [collectModules, List.getD_eq_getElem?_getD, List.getElem?_map,
        List.getElem?_eq_getElem hi]
    rw [List.getD_eq_getElem?_getD, List.getElem?_eq_getElem hi]
    rfl
  have hmod : (collectModules parse files).getD i defaultCollectedModule =
      moduleOfParsed (files.getD i ("", "")).1 none := by
    rw [hget, hfail]
  have hjson : ((collectModules parse files).getD i defaultCollectedModule).packageJson =
      none := by
    rw [hmod]
    rfl
  refine ⟨hlen, hjson, ?_, ?_, ?_⟩
  · rw [hmod]
    rfl
  · refine foldl_eraseIdx_of_id scriptStep _ i defaultCollectedModule ?_ ?_ []
    · rw [hlen]
      exact hi
    · intro acc
      exact scriptStep_empty acc _ hjson
  · refine foldl_eraseIdx_of_id depStep _ i defaultCollectedModule ?_ ?_ []
    · rw [hlen]
      exact hi
    · intro acc
      exact depStep_empty acc _ hjson

theorem createBlobsLoop_all_ok (oracle : GhReq → Except String GhResp)
    (stringify : PackageJson → String)
    (hblob : ∀ c, ∃ r, oracle (GhReq.createBlob c) = Except.ok r) :
    ∀ (files : List (String × PackageJson)) (reqs : List GhReq) (entries : List TreeEntry),
    ∃ es, createBlobsLoop oracle stringify files reqs entries =
      (reqs ++ files.map (fun f => GhReq.createBlob (stringify f.2 ++ "\n")), Except.ok es) := by
  intro files
  induction files with
  | nil =>
    intro reqs entries
    exact ⟨entries, by simp [createBlobsLoop]⟩
  | cons f rest ih =>
    intro reqs entries
    obtain ⟨path, pkgJson⟩ := f
    obtain ⟨r, hr⟩ := hblob (stringify pkgJson ++ "\n")
    obtain ⟨es, hes⟩ := ih (reqs ++ [GhReq.createBlob (stringify pkgJson ++ "\n")])
      (entries ++ [⟨path, "100644", "blob", r.sha⟩])
    refine ⟨es, ?_⟩
    rw [createBlobsLoop, hr]
    dsimp only
    rw [hes]
    simp

/-- Claim C6: a CreateCommit failure aborts the pipeline with the remote
error; the ref update and the pull request are never issued, so the branch
ref still points at the base sha. -/
theorem c6_commit_failure (oracle : GhReq → Except String GhResp)
    (stringify : PackageJson → String) (repoMeta : RepoMeta)
    (harmonizedPackageJsons : Obj PackageJson)
    (branchName prTitle prBody e : String)
    (hbranch : ∀ ref sha, ∃ r, oracle (GhReq.createRef ref sha) = Except.ok r)
    (hblob : ∀ c, ∃ r, oracle (GhReq.createBlob c) = Except.ok r)
    (htree : ∀ bt es, ∃ r, oracle (GhReq.createTree bt es) = Except.ok r)
    (hcommit : ∀ msg tr ps, oracle (GhReq.createCommit msg tr ps) = Except.error e) :
    CommitFailureSpec oracle stringify repoMeta harmonizedPackageJsons
      branchName prTitle prBody e := by
  obtain ⟨r1, hr1⟩ := hbranch ("refs/heads/" ++ branchName) repoMeta.defaultBranchSha
  obtain ⟨es, hes⟩ := createBlobsLoop_all_ok oracle stringify hblob
    harmonizedPackageJsons
    [GhReq.createRef ("refs/heads/" ++ branchName) repoMeta.defaultBranchSha] []
  obtain ⟨rt, hrt⟩ := htree repoMeta.defaultBranchSha es
  have hrun : applyChangesAsPR oracle stringify repoMeta harmonizedPackageJsons
      branchName prTitle prBody =
    ([GhReq.createRef ("refs/heads/" ++ branchName) repoMeta.defaultBranchSha] ++
      harmonizedPackageJsons.map (fun f => GhReq.createBlob (stringify f.2 ++ "\n")) ++
      [GhReq.createTree repoMeta.defaultBranchSha es,
       GhReq.createCommit prTitle rt.sha [repoMeta.defaultBranchSha]],
     Except.error e) := by
    rw [applyChangesAsPR, hr1]
    dsimp only
    rw [hes]
    dsimp only
    rw [hrt]
    dsimp only
    rw [hcommit prTitle rt.sha [repoMeta.defaultBranchSha]]
  refine ⟨?_, ?_, ?_⟩
  · rw [hrun]
  · intro r hr
    rw [hrun] at hr
    rcases List.mem_append.mp hr with h12 | h34
    · rcases List.mem_append.mp h12 with h1 | h2
      · rcases List.mem_cons.mp h1 with rfl | h
        · rfl
        · simp at h
      · obtain ⟨f, hf, heq⟩ := List.mem_map.mp h2
        rw [← heq]
        rfl
    · rcases List.mem_cons.mp h34 with rfl | h34'
      · rfl
      · rcases List.mem_cons.mp h34' with rfl | h
        · rfl
        · simp at h
  · intro ref sha hr
    rw [hrun] at hr
    rcases List.mem_append.mp hr with h12 | h34
    · rcases List.mem_append.mp h12 with h1 | h2
      · rcases List.mem_cons.mp h1 with heq | h
        · injection heq with h1 h2
          exact ⟨h1, h2⟩
        · simp at h
      · obtain ⟨f, hf, heq⟩ := List.mem_map.mp h2
        exact absurd heq.symm (by simp)
    · rcases List.mem_cons.mp h34 with heq | h34'
      · exact absurd heq (by simp)
      · rcases List.mem_cons.mp h34' with heq | h
        · exact absurd heq (by simp)
        · simp at h

/-- Amended claim C8: in the worker's embedded backend, a missing API key
degrades every group to a placeholder suggestion whose rationale says the
file must be unified manually, and the function itself never fails. -/
theorem c8_amended_placeholder (unify : HarmonizerDiff → String × String)
    (diffs : List HarmonizerDiff) :
    generateUnifiedSuggestions none unify diffs =
      diffs.map (fun d =>
        { file := d.file
          unifiedCode := "// OpenAI API key missing – manual harmonization needed.\n"
          rationale := "OpenAI disabled – please manually unify this file." }) :=
  rfl

/-- Claim C1 witness: on the specification's worked example the hypotheses
hold and the conflicting `react` key yields a Decision for `^18.2.0`. -/
theorem c1_dep_recommendation_witness :
    ModulesWF [demoModuleA, demoModuleB] ∧
    (UsesDep [demoModuleA, demoModuleB] "react" "^17.0.0" ∧
      UsesDep [demoModuleA, demoModuleB] "react" "^18.2.0" ∧
      ("^17.0.0" : String) ≠ "^18.2.0") ∧
    DepDecisionSpec [demoModuleA, demoModuleB] "react" :=
  ⟨by decide, ⟨by decide, by decide, by decide⟩,
    c1_dep_recommendation [demoModuleA, demoModuleB] "react" (by decide)
      ⟨"^17.0.0", "^18.2.0", by decide, by decide, by decide⟩⟩

/-- Claim C2 witness: on the specification's worked example the hypotheses
hold and the conflicting `build` script yields a Decision. -/
theorem c2_script_recommendation_witness :
    ModulesWF [demoModuleA, demoModuleB] ∧
    (UsesScript [demoModuleA, demoModuleB] "build" "tsc" ∧
      UsesScript [demoModuleA, demoModuleB] "build" "vite build" ∧
      ("tsc" : String) ≠ "vite build") ∧
    ScriptDecisionSpec [demoModuleA, demoModuleB] "build" :=
  ⟨by decide, ⟨by decide, by decide, by decide⟩,
    c2_script_recommendation [demoModuleA, demoModuleB] "build" (by decide)
      ⟨"tsc", "vite build", by decide, by decide, by decide⟩⟩

/-- Claim C3 counterexample: module C never had a `build` script, yet its
harmonized manifest gains `build = "tsc"` — harmonization does introduce a
key absent from the original module. -/
theorem c3_counterexample :
    objLookup (pkgOf demoModuleC).scripts "build" = none ∧
    objLookup (analyzeAndBuildHarmonized
        [demoModuleA, demoModuleB, demoModuleC]).harmonizedPackageJsons
      "apps/c/package.json" =
      some { name := some "c", scripts := [("build", "tsc")],
             dependencies := [], devDependencies := [] } := by
  decide

/-- Amended claim C3 witness. -/
theorem c3_amended_witness :
    demoModuleC ∈ [demoModuleA, demoModuleB, demoModuleC] ∧
    HarmonizeKeySpec [demoModuleA, demoModuleB, demoModuleC] demoModuleC :=
  ⟨by decide, c3_amended_no_new_dep_keys _ _ (by decide)⟩

/-- Claim C4 witness. -/
theorem c4_dep_scope_witness :
    demoModuleA ∈ [demoModuleA, demoModuleB, demoModuleC] ∧
    DepScopeSpec [demoModuleA, demoModuleB, demoModuleC] demoModuleA :=
  ⟨by decide, c4_dep_scope _ _ (by decide)⟩

/-- Claim C5 counterexample: dependency `x` conflicts between `1.0.0` and
the falsy empty string; harmonization cannot overwrite the falsy value, so
after re-running reconciliation the key is still a Decision, not Uniform. -/
theorem c5_counterexample :
    (analyzeModules [demoModuleD1, demoModuleD2]).depSuggestions =
      [DepSuggestion.decision "x" "1.0.0" ["1.0.0", ""]
        [("d1", "1.0.0"), ("d2", "")]] ∧
    (analyzeModules (harmonizedModules [demoModuleD1, demoModuleD2])).depSuggestions =
      [DepSuggestion.decision "x" "1.0.0" ["1.0.0", ""]
        [("d1", "1.0.0"), ("d2", "")]] := by
  decide

/-- Amended claim C5 witness. -/
theorem c5_amended_idempotent_witness :
    (∀ m ∈ [demoModuleA, demoModuleB], PkgWF (pkgOf m)) ∧
    (∀ m ∈ [demoModuleA, demoModuleB],
      (∀ kv ∈ (pkgOf m).dependencies, kv.2 ≠ "") ∧
      (∀ kv ∈ (pkgOf m).devDependencies, kv.2 ≠ "")) ∧
    (∀ m ∈ [demoModuleA, demoModuleB], ∀ kv ∈ (pkgOf m).dependencies,
      startsWithDev kv.1 = false) ∧
    RerunUniformSpec [demoModuleA, demoModuleB] :=
  ⟨by decide, by decide, by decide,
    c5_amended_idempotent [demoModuleA, demoModuleB] (by decide) (by decide) (by decide)⟩

/-- Claim C6 witness: with such an oracle the pipeline aborts at
CreateCommit, never issues the ref update or the pull request, and the only
created ref points at the base sha. -/
theorem c6_commit_failure_witness :
    (∀ msg tr ps, demoOracle (GhReq.createCommit msg tr ps) =
      Except.error "GitHub API error for /repos/o/r/git/commits: 500 boom") ∧
    CommitFailureSpec demoOracle demoStringify demoRepoMeta
      [("apps/a/package.json", pkgOf demoModuleA)]
      "asa-code-harmonizer-1700000000000" "ASA CODE-HARMONIZER: monorepo sync" "body"
      "GitHub API error for /repos/o/r/git/commits: 500 boom" :=
  ⟨fun msg tr ps => rfl,
    c6_commit_failure demoOracle demoStringify demoRepoMeta
      [("apps/a/package.json", pkgOf demoModuleA)]
      "asa-code-harmonizer-1700000000000" "ASA CODE-HARMONIZER: monorepo sync" "body"
      "GitHub API error for /repos/o/r/git/commits: 500 boom"
      (fun ref sha => ⟨⟨"sha0", 0, ""⟩, rfl⟩)
      (fun c => ⟨⟨"sha0", 0, ""⟩, rfl⟩)
      (fun bt es => ⟨⟨"sha0", 0, ""⟩, rfl⟩)
      (fun msg tr ps => rfl)⟩

/-- Claim C7 witness. -/
theorem c7_parse_failure_witness :
    (0 < demoFiles.length ∧ demoParse (demoFiles.getD 0 ("", "")).2 = none) ∧
    ParseFailureSpec demoParse demoFiles 0 :=
  ⟨⟨by decide, by decide⟩, c7_parse_failure demoParse demoFiles 0 (by decide) (by decide)⟩

/-- Claim C8 counterexample: in `backend/server.js` there is no placeholder
path — when the unify collaborator is unreachable the preview request
responds with the `{ok:false, error}` failure body and produces no
suggestions, contradicting "the response is never an error". -/
theorem c8_counterexample :
    previewHandler failingUnifyCall demoListFiles
      [("alpha", "apps/alpha"), ("beta", "apps/beta")] =
      PreviewResponse.failure "connect ECONNREFUSED" := by
  decide

/-- Claim C9 counterexample: two module sets in which the number of modules
using `2.0.0` differs (1 vs 2), yet the dependency Decisions carry exactly
the same `variants` field — the sorted list of distinct values.  The emitted
variant information for dependency decisions therefore does not map values
to the number of modules using them. -/
theorem c9_counterexample :
    (analyzeModules [demoModuleE1, demoModuleE2]).depSuggestions =
      [DepSuggestion.decision "react" "2.0.0" ["2.0.0", "1.0.0"]
        [("e1", "1.0.0"), ("e2", "2.0.0")]] ∧
    (analyzeModules [demoModuleE1, demoModuleE2, demoModuleE3]).depSuggestions =
      [DepSuggestion.decision "react" "2.0.0" ["2.0.0", "1.0.0"]
        [("e1", "1.0.0"), ("e2", "2.0.0"), ("e3", "2.0.0")]] ∧
    ([demoModuleE1, demoModuleE2].filter
      (fun m => decide (depValueOf m "react" = some "2.0.0"))).length = 1 ∧
    ([demoModuleE1, demoModuleE2, demoModuleE3].filter
      (fun m => decide (depValueOf m "react" = some "2.0.0"))).length = 2 := by
  decide

/-- Amended claim C9 witness. -/
theorem c9_amended_variant_info_witness :
    ModulesWF [demoModuleE1, demoModuleE2] ∧
    VariantInfoSpec [demoModuleE1, demoModuleE2] :=
  ⟨by decide, c9_amended_variant_info _ (by decide)⟩

/-- Claim C10 witness. -/
theorem c10_name_collision_witness :
    (demoCollide1.name = demoCollide2.name ∧ PkgWF (pkgOf demoCollide1) ∧
      PkgWF (pkgOf demoCollide2)) ∧
    NameCollisionSpec demoCollide1 demoCollide2 :=
  ⟨⟨by decide, by decide, by decide⟩,
    c10_name_collision _ _ (by decide) (by decide) (by decide)⟩
